import Mathlib

/-!
# Verification of the repoverlay reconciliation core

A shallow embedding, in Lean 4, of the parts of the `repoverlay` code base
(`src/repoverlay/*.py`) that the verified claims are about:

* `validation.py` — path and mapping-set validation,
* `ignore.py` — glob-style ignore matching (Python `fnmatch` semantics),
* `sops.py` — the batch decryption pass and its rollback,
* `state.py` — the persisted reconciliation state document,
* `overlay.py` — clone precheck, the remote/local heuristic, the sync
  reconciliation engine, the encrypted-file exposure loop, and unlink.

Python strings are modelled as Lean `String`; Python `str.startswith` /
`str.endswith` are modelled on the underlying character lists so that prefix
reasoning is available.  Python lists are Lean `List`, Python sets are
`Finset String`, Python dicts that the code iterates in insertion order are
association lists.  Filesystem and subprocess effects are made explicit:
the filesystem is an association list from relative path strings to entries,
and external collaborators (git, sops) are oracle functions supplied in an
environment record.
-/

namespace Repoverlay

/-- Python `s.startswith(pre)`: `pre` is a prefix of the character sequence. -/
def pyStartswith (s pre : String) : Bool :=
  pre.data.isPrefixOf s.data

/-- Python `s.endswith(suf)`: `suf` is a suffix of the character sequence. -/
def pyEndswith (s suf : String) : Bool :=
  suf.data.isSuffixOf s.data

/-- Python `path.replace("\\", "/")`: both pattern and replacement are a
single character, so this is a character map. -/
def pyReplaceBackslash (p : String) : String :=
  String.mk (p.data.map (fun c => if c = '\\' then '/' else c))

/-- Split a character list on a separator character, Python `str.split` style
(the empty string yields `[""]`, leading/trailing separators yield empty
fields). -/
def splitCharList (sep : Char) : List Char → List (List Char)
  | [] => [[]]
  | c :: cs =>
    let r := splitCharList sep cs
    if c = sep then [] :: r
    else
      match r with
      | g :: gs => (c :: g) :: gs
      | [] => [[c]]

/-- Python `p.split("/")`. -/
def pySplitSlash (p : String) : List String :=
  (splitCharList '/' p.data).map String.mk

/-! ## validation.py -/

/-- One `{src, dst}` mapping from the configuration (`validation.py`,
`overlay.py`). -/
structure Mapping where
  src : String
  dst : String
deriving DecidableEq, Repr

/-- `validation.validate_path`: returns `some errorMessage` where the Python
code raises `ValidationError`, `none` where it returns normally. -/
def validate_path (path : String) (is_dst : Bool) : Option String :=
  let parts := pySplitSlash (pyReplaceBackslash path)
  if ".." ∈ parts then
    some ("Path cannot contain '..': " ++ path)
  else if is_dst then
    if pyStartswith path "/" then
      some ("Destination must be relative: " ++ path)
    else if path == ".git" || pyStartswith path ".git/" then
      some ("Destination cannot be in .git/: " ++ path)
    else if path == ".repoverlay" || pyStartswith path ".repoverlay/" then
      some ("Cannot overwrite repoverlay files: " ++ path)
    else if path == ".repoverlay.yaml" then
      some ("Cannot overwrite repoverlay files: " ++ path)
    else if path == ".repoverlayignore" then
      some ("Cannot overwrite repoverlay files: " ++ path)
    else
      none
  else
    none

/-- The per-mapping loop of `validation.validate_mappings`: validates each
`src`/`dst` and accumulates destinations, rejecting duplicates. -/
def collectDestinations : List Mapping → List String → Except String (List String)
  | [], dests => .ok dests
  | m :: rest, dests =>
    match validate_path m.src false with
    | some e => .error e
    | none =>
      match validate_path m.dst true with
      | some e => .error e
      | none =>
        if m.dst ∈ dests then
          .error ("Duplicate destination: " ++ m.dst)
        else
          collectDestinations rest (dests ++ [m.dst])

/-- The nested scan of `validation._check_overlapping_paths` over the
length-sorted destination list: for each `parent`, look for a later `child`
that starts with `parent + "/"`. -/
def checkOverlapSorted : List String → Option String
  | [] => none
  | p :: rest =>
    match rest.find? (fun c => pyStartswith c (p ++ "/")) with
    | some c => some ("Overlapping paths: '" ++ c ++ "' inside '" ++ p ++ "'")
    | none => checkOverlapSorted rest

/-- `validation._check_overlapping_paths`: sort by length ascending
(Python `sorted(paths, key=len)` is stable) and scan. -/
def check_overlapping_paths (paths : List String) : Option String :=
  checkOverlapSorted (paths.mergeSort (fun a b => a.length ≤ b.length))

/-- `validation.validate_mappings`: `none` means the Python function returns
without raising. -/
def validate_mappings (mappings : List Mapping) : Option String :=
  match collectDestinations mappings [] with
  | .error e => some e
  | .ok dests => check_overlapping_paths dests

/-- The claim's traversal condition: the path, with backslashes normalized to
slashes, has a `".."` segment. -/
def hasTraversal (p : String) : Prop :=
  ".." ∈ pySplitSlash (pyReplaceBackslash p)

instance (p : String) : Decidable (hasTraversal p) := by
  unfold hasTraversal
  infer_instance

/-- The claim's destination conditions: absolute, or equal to / nested under
the VCS-metadata directory (`.git`) or the tool-management paths
(`.repoverlay`, `.repoverlay.yaml`, `.repoverlayignore`). -/
def dstForbidden (p : String) : Prop :=
  pyStartswith p "/" = true ∨
  (p = ".git" ∨ pyStartswith p ".git/" = true) ∨
  (p = ".repoverlay" ∨ pyStartswith p ".repoverlay/" = true) ∨
  p = ".repoverlay.yaml" ∨ p = ".repoverlayignore"

instance (p : String) : Decidable (dstForbidden p) := by
  unfold dstForbidden
  infer_instance

/-- The claim's rejection condition for a mapping set, as stated: a `..`
segment in some `src` or `dst`, a forbidden destination, a duplicated
destination, or one destination extended with the separator being a prefix
of another. -/
def claimRejects (ms : List Mapping) : Prop :=
  (∃ m ∈ ms, hasTraversal m.src ∨ hasTraversal m.dst) ∨
  (∃ m ∈ ms, dstForbidden m.dst) ∨
  ¬ (ms.map Mapping.dst).Nodup ∨
  (∃ a ∈ ms.map Mapping.dst, ∃ b ∈ ms.map Mapping.dst,
    pyStartswith b (a ++ "/") = true)

/-! ## ignore.py

`ignore._matches_pattern` delegates plain matching to Python's
`fnmatch.fnmatch`.  On POSIX `os.path.normcase` is the identity, and
`fnmatch.translate` maps `*` to `.*` (any run of characters, including the
path separator), `?` to `.`, and `[...]` to a regular-expression character
class with optional leading `!` negation, `]` as first member taken
literally, `a-b` ranges, and an unmatched `[` taken literally.  The matcher
below models exactly these semantics on character lists. -/

/-- Membership of a character in a (already negation-stripped) class body,
with `a-b` ranges. -/
def inClassChars (c : Char) : List Char → Bool
  | a :: '-' :: b :: rest => (a ≤ c && c ≤ b) || inClassChars c rest
  | a :: rest => (a == c) || inClassChars c rest
  | [] => false

/-- Index of the first `]` in a character list. -/
def findCloseIdx : List Char → Option Nat
  | [] => none
  | ']' :: _ => some 0
  | _ :: rest => (findCloseIdx rest).map (· + 1)

/-- Parse a character-class body following an opening `[`, Python
`fnmatch.translate` style: an optional leading `!` negates, a `]`
immediately after (possibly after `!`) is a literal member, and the class
ends at the next `]`.  Returns `(negated, body, consumedChars)`; `none`
means there is no closing `]` and the `[` is literal. -/
def parseClassSplit (ps : List Char) : Option (Bool × List Char × Nat) :=
  let neg := ps.head? = some '!'
  let off := if neg then 1 else 0
  let tl := ps.drop off
  let off2 := if tl.head? = some ']' then 1 else 0
  match findCloseIdx (tl.drop off2) with
  | none => none
  | some k => some (neg, tl.take (off2 + k), off + off2 + k + 1)

/-- `fnmatch.fnmatch` on character lists (POSIX, case-sensitive). -/
def fnmatchList : List Char → List Char → Bool
  | s, [] => s.isEmpty
  | s, '*' :: ps => s.tails.any (fun t => fnmatchList t ps)
  | s, '?' :: ps =>
    match s with
    | [] => false
    | _ :: cs => fnmatchList cs ps
  | s, '[' :: ps =>
    match parseClassSplit ps with
    | some (neg, body, n) =>
      match s with
      | [] => false
      | c :: cs => (inClassChars c body != neg) && fnmatchList cs (ps.drop n)
    | none =>
      match s with
      | [] => false
      | c :: cs => (c == '[') && fnmatchList cs ps
  | s, p :: ps =>
    match s with
    | [] => false
    | c :: cs => (c == p) && fnmatchList cs ps
termination_by s p => p.length
decreasing_by all_goals (simp_all [List.length_drop]; try omega)

/-- Python `fnmatch.fnmatch(path, pat)` (POSIX). -/
def pyFnmatch (path pat : String) : Bool :=
  fnmatchList path.data pat.data

/-- Python `pattern.split("**")`. -/
def splitSSChars : List Char → List (List Char)
  | [] => [[]]
  | '*' :: '*' :: rest => [] :: splitSSChars rest
  | c :: rest =>
    match splitSSChars rest with
    | g :: gs => (c :: g) :: gs
    | [] => [[c]]

/-- Python `pattern.split("**")` on strings. -/
def pySplitStarStar (p : String) : List String :=
  (splitSSChars p.data).map String.mk

/-- Python `s.lstrip("/")`. -/
def pyLstripSlash (s : String) : String :=
  String.mk (s.data.dropWhile (· = '/'))

/-- Python `s.rstrip("/")`. -/
def pyRstripSlash (s : String) : String :=
  String.mk ((s.data.reverse.dropWhile (· = '/')).reverse)

/-- Python `"/".join(xs)`. -/
def joinSlash (xs : List String) : String :=
  String.intercalate "/" xs

/-- `ignore._matches_pattern`.  Python enters the `**` branch when `"**" in
pattern` and `len(parts) == 2`; since `len(parts) == 2` already implies the
substring test, the single test `parts.length == 2` is equivalent.  When
`len(parts) != 2` control falls through to the plain-`fnmatch` section, as
in the source. -/
def matches_pattern (path pat : String) : Bool :=
  let parts := pySplitStarStar pat
  if parts.length == 2 then
    match parts with
    | [pre0, suf0] =>
      let pre := pyRstripSlash pre0
      let suf := pyLstripSlash suf0
      if pre == "" && suf == "" then
        true
      else if pre == "" then
        if pyFnmatch path ("*" ++ suf) then true
        else
          let pparts := pySplitSlash path
          (List.range pparts.length).any fun i =>
            pyFnmatch (joinSlash (pparts.drop i)) (pyLstripSlash suf)
      else if suf == "" then
        pyStartswith path pre || pyFnmatch path pre
      else
        if pyFnmatch path (pre ++ "*" ++ suf) then true
        else
          let pparts := pySplitSlash path
          (List.range pparts.length).any fun i =>
            (pre == "" || pyFnmatch (joinSlash (pparts.take i)) (pyRstripSlash pre)) &&
              pyFnmatch (joinSlash (pparts.drop i)) (pyLstripSlash suf)
    | _ => false
  else
    if pyFnmatch path pat then true
    else if ¬ ('/' ∈ pat.data) then
      pyFnmatch ((pySplitSlash path).getLastD "") pat
    else
      false

/-- `ignore.should_ignore`. -/
def should_ignore (path : String) (patterns : List String) : Bool :=
  patterns.any (fun pat => matches_pattern path pat)

/-- `ignore.filter_mappings`. -/
def filter_mappings (mappings : List Mapping) (patterns : List String) :
    List Mapping :=
  mappings.filter (fun m => ¬ should_ignore m.src patterns)

/-! ## sops.py -/

/-- `sops.ENCRYPTED_EXTENSIONS`. -/
def ENCRYPTED_EXTENSIONS : List String := [".enc", ".encoded", ".encrypted"]

/-- `sops.is_encrypted_file`. -/
def is_encrypted_file (path : String) : Bool :=
  ENCRYPTED_EXTENSIONS.any (fun ext => pyEndswith path ext)

/-- `sops.get_decoded_path`: strip the first matching encryption suffix. -/
def get_decoded_path (path : String) : String :=
  match ENCRYPTED_EXTENSIONS.find? (fun ext => pyEndswith path ext) with
  | some ext => String.mk (path.data.take (path.data.length - ext.data.length))
  | none => path

/-- One persisted encrypted-file record (`state.py` schema).  `symlink_dst`
is optional because `clone` adds it only after creating the exposure
symlink. -/
structure EncFileRecord where
  decoded_path : String
  symlink_dst : Option String
  last_encrypted_hash : String
deriving DecidableEq, Repr

/-- The oracles for the external `sops` collaborator: availability of the
CLI, per-file decryption success, and the content hash of a ciphertext
(`sops.is_sops_available`, `sops.decrypt_file`, `sops.file_hash`). -/
structure SopsWorld where
  sopsAvailable : Bool
  decryptOk : String → Bool
  encHash : String → String

/-- The `sops` error taxonomy used by `decrypt_all_files`. -/
inductive SopsErr
  | notAvailable
  | decryptionFailed (path : String)
deriving DecidableEq, Repr

/-- Add a path to a directory listing (file writes are idempotent on the
name set). -/
def fsAdd (p : String) (fs : List String) : List String :=
  if p ∈ fs then fs else fs ++ [p]

/-- Result of a `decrypt_all_files` run: the Python return value or raised
error, the decoded-directory contents afterwards, and the plaintexts written
during the batch (`decrypted_files` in the source). -/
structure DecryptAllOut where
  result : Except SopsErr (List (String × EncFileRecord))
  decodedFs : List String
  written : List String
deriving Repr

/-- The `try`-loop of `sops.decrypt_all_files`: decrypt each file in order,
recording written plaintexts; on the first failure unlink every recorded
plaintext that exists (`for f in decrypted_files: if f.exists(): f.unlink()`)
and re-raise. -/
def decrypt_all_loop (w : SopsWorld) :
    List String → List String → List String → List (String × EncFileRecord) →
    DecryptAllOut
  | [], fs, written, acc => ⟨.ok acc, fs, written⟩
  | f :: rest, fs, written, acc =>
    let decodedName := get_decoded_path f
    if w.decryptOk f then
      decrypt_all_loop w rest (fsAdd decodedName fs) (written ++ [decodedName])
        (acc ++ [⟨f, decodedName, none, w.encHash f⟩])
    else
      ⟨.error (.decryptionFailed f),
        written.foldl (fun fs2 d => fs2.erase d) fs, written⟩

/-- `sops.decrypt_all_files`, over the already-scanned encrypted-file list
and the decoded-directory contents. -/
def decrypt_all_files (w : SopsWorld) (encryptedFiles decodedFs : List String) :
    DecryptAllOut :=
  if encryptedFiles.isEmpty then ⟨.ok [], decodedFs, []⟩
  else if !w.sopsAvailable then ⟨.error .notAvailable, decodedFs, []⟩
  else decrypt_all_loop w encryptedFiles decodedFs [] []

/-! ## state.py -/

/-- The on-disk `state.json` document.  `encrypted_files` is `Option`al
because old documents (and the one written by `unlink`) lack the key. -/
structure StateDoc where
  symlinks : List String
  created_directories : List String
  encrypted_files : Option (List (String × EncFileRecord))
deriving DecidableEq, Repr

/-- The dictionary `state.read_state` returns (the `encrypted_files` key is
always present after the backwards-compatibility default). -/
structure StateData where
  symlinks : List String
  created_directories : List String
  encrypted_files : List (String × EncFileRecord)
deriving DecidableEq, Repr

/-- `state.read_state`: missing file gives empty defaults; a document
without `encrypted_files` gets `{}` filled in. -/
def read_state : Option StateDoc → StateData
  | none => ⟨[], [], []⟩
  | some d => ⟨d.symlinks, d.created_directories, d.encrypted_files.getD []⟩

/-! ## git.py (collaborator boundary) -/

/-- What the git collaborator would report about the overlay checkout:
the number of commits ahead of upstream and the `git status --porcelain`
lines. -/
structure GitWorld where
  unpushedCount : Nat
  uncommittedFiles : List String
deriving DecidableEq, Repr

/-- `git.has_unpushed_commits` (upstream-configured path):
`(count > 0, count)`. -/
def has_unpushed_commits (w : GitWorld) : Bool × Nat :=
  (decide (0 < w.unpushedCount), w.unpushedCount)

/-- `git.has_uncommitted_changes`: `(any status lines, the lines)`. -/
def has_uncommitted_changes (w : GitWorld) : Bool × List String :=
  (!w.uncommittedFiles.isEmpty, w.uncommittedFiles)

/-! ## overlay.py — remote/local heuristic and clone precheck -/

/-- Python `sub in s` (substring containment) on character lists. -/
def pyContains (s sub : String) : Bool :=
  s.data.tails.any (fun t => sub.data.isPrefixOf t)

/-- `overlay._is_local_path`. -/
def is_local_path (repo : String) : Bool :=
  if pyContains repo "://" || (pyStartswith repo "git@" && pyContains repo ":") then
    false
  else
    true

/-- The claim's reading of the SSH heuristic: the reference starts with
`user@host:` for some nonempty user and host. -/
def sshStylePrefixed (repo : String) : Prop :=
  ∃ u h r, u ≠ "" ∧ h ≠ "" ∧ repo = u ++ "@" ++ h ++ ":" ++ r

/-- The filesystem mutation performed by the clone precheck. -/
inductive CloneAction
  | removeRepoDir
deriving DecidableEq, Repr

/-- `overlay.clone_overlay`, lines 147–155 (the "already cloned" check).
Note that the existing checkout's git state (the `GitWorld` argument) is
never consulted: under `force` the checkout is removed unconditionally. -/
def clone_precheck (_git : GitWorld) (repoDirExists force dryRun : Bool) :
    Except String (List CloneAction) :=
  if repoDirExists then
    if force then
      if dryRun then .ok []
      else .ok [.removeRepoDir]
    else
      .error "Already cloned. Remove .repoverlay/ to re-clone or use --force"
  else
    .ok []

/-! ## overlay.py — unlink -/

/-- Everything `unlink_overlay` observes: checkout presence, the git
collaborator's reports, the persisted state document, and which recorded
paths are live symlinks / empty directories on disk. -/
structure UnlinkWorld where
  repoDirExists : Bool
  dotGitExists : Bool
  git : GitWorld
  stored : Option StateDoc
  liveSymlinks : List String
  emptyDirs : List String
  overlayDirExists : Bool
deriving DecidableEq, Repr

/-- `overlay.UnpushedCommitsError` / `overlay.UncommittedChangesError`. -/
inductive UnlinkErr
  | unpushedCommits (count : Nat)
  | uncommittedChanges (files : List String)
deriving DecidableEq, Repr

/-- What an `unlink_overlay` run did: removals performed and the state
document that remains on disk afterwards. -/
structure UnlinkResult where
  removedSymlinks : List String
  removedDirs : List String
  removedRepo : Bool
  stored : Option StateDoc
deriving DecidableEq, Repr

/-- Stable descending-by-length insertion used to model Python
`sorted(created_dirs, key=len, reverse=True)`. -/
def insertLenDesc (x : String) : List String → List String
  | [] => [x]
  | y :: ys => if y.length < x.length then x :: y :: ys else y :: insertLenDesc x ys

/-- Stable sort by length, descending. -/
def sortLenDesc : List String → List String
  | [] => []
  | x :: xs => insertLenDesc x (sortLenDesc xs)

/-- `overlay.unlink_overlay`.  The pre-unlink validation (lines 724–741)
runs only when the checkout and its `.git` exist; the unpushed-commit check
is unconditional (even under `dry_run` and `force`), the uncommitted-changes
check is skipped under `force` or `dry_run`.  On success the state document
is rewritten to `{"symlinks": [], "created_directories": []}` (no
`encrypted_files` key), and `--remove-repo` then deletes the whole
management directory including that document. -/
def unlink_overlay (w : UnlinkWorld) (removeRepo force dryRun : Bool) :
    Except UnlinkErr UnlinkResult :=
  if w.repoDirExists && w.dotGitExists &&
      (has_unpushed_commits w.git).1 then
    .error (.unpushedCommits (has_unpushed_commits w.git).2)
  else if w.repoDirExists && w.dotGitExists &&
      ((has_uncommitted_changes w.git).1 && !force && !dryRun) then
    .error (.uncommittedChanges (has_uncommitted_changes w.git).2)
  else
    let st := read_state w.stored
    if dryRun then
      .ok ⟨[], [], false, w.stored⟩
    else
      let removedLinks := st.symlinks.filter (fun s => s ∈ w.liveSymlinks)
      let removedDirs :=
        (sortLenDesc st.created_directories).filter (fun d => d ∈ w.emptyDirs)
      if removeRepo && w.overlayDirExists then
        .ok ⟨removedLinks, removedDirs, true, none⟩
      else
        .ok ⟨removedLinks, removedDirs, false, some ⟨[], [], none⟩⟩

/-! ## overlay.py — the sync reconciliation engine

The filesystem of the project tree (outside the `.repoverlay/` management
directory) is a partial map from relative path strings to entries.  The
overlay checkout (`.repoverlay/repo/`) and the decoded area
(`.repoverlay/decoded/`) are kept as listings in the environment; a
symlink's target resolves into those listings when the normalized target
lands under the corresponding managed area, and against the project map
otherwise (symlink chains are not chased — managed links point into the
managed areas).  Python sets materialized from persisted lists are modelled
as `dedup`ed lists, and set difference/union as membership-based filter and
append-then-`dedup`; this is an order-deterministic refinement of Python's
arbitrary set iteration order. -/

/-- Components of a relative path string (`""` has no components). -/
def compsOf (p : String) : List String :=
  if p = "" then [] else pySplitSlash p

/-- Join components with `/` (Python `"/".join`). -/
def joinComps : List String → String
  | [] => ""
  | [c] => c
  | c :: rest => c ++ "/" ++ joinComps rest

/-- The length of the longest common prefix of two component lists
(`os.path.commonprefix` on split paths, as used by `os.path.relpath`). -/
def commonLen : List String → List String → Nat
  | a :: as, b :: bs => if a = b then commonLen as bs + 1 else 0
  | _, _ => 0

/-- `os.path.relpath(target, start)` on `..`-free component lists. -/
def relpathComps (target start : List String) : List String :=
  List.replicate (start.length - commonLen target start) ".." ++
    target.drop (commonLen target start)

/-- One step of path normalization. -/
def normStep (acc : List String) (c : String) : List String :=
  if c = "" ∨ c = "." then acc
  else if c = ".." then acc.dropLast
  else acc ++ [c]

/-- Normalize a component list: drop empty and `.` components, resolve
`..`. -/
def normComps (cs : List String) : List String :=
  cs.foldl normStep []

/-- The string a mapping's symlink is created with:
`os.path.relpath(repo_dir / src, root_dir / dirname dst)`. -/
def mappingLinkTarget (src dst : String) : String :=
  joinComps (relpathComps ([".repoverlay", "repo"] ++ compsOf src)
    ((compsOf dst).dropLast))

/-- The string an encrypted record's exposure symlink is created with:
`os.path.relpath(decoded_dir / decoded_path, root_dir / dirname symlink_dst)`. -/
def decodedLinkTarget (decodedPath symlinkDst : String) : String :=
  joinComps (relpathComps ([".repoverlay", "decoded"] ++ compsOf decodedPath)
    ((compsOf symlinkDst).dropLast))

/-- A project-tree filesystem entry. -/
inductive FsEntry
  | file
  | dir
  | link (target : String)
deriving DecidableEq, Repr

/-- The project-tree filesystem. -/
def Fs : Type := String → Option FsEntry

/-- Set an entry. -/
def fsSet (fs : Fs) (p : String) (e : FsEntry) : Fs :=
  fun q => if q = p then some e else fs q

/-- Remove one entry (`Path.unlink`). -/
def fsRemove (fs : Fs) (p : String) : Fs :=
  fun q => if q = p then none else fs q

/-- Remove an entry and everything beneath it (`shutil.rmtree`). -/
def fsRemoveTree (fs : Fs) (p : String) : Fs :=
  fun q => if q = p ∨ pyStartswith q (p ++ "/") = true then none else fs q

/-- The sync environment: everything `sync_overlay` reads that is not the
project filesystem, the decoded listing, or the persisted state.  "No
intervening changes" between two runs means running with the same
environment value.  The repo-URL-mismatch and gitignore-conflict checks are
omitted: they emit warnings and affect only the exit code, never the
filesystem or the persisted state. -/
structure SyncEnv where
  repoCloned : Bool
  repoFiles : List String
  repoDirs : List String
  explicitMappings : Option (List Mapping)
  ignorePatterns : List String
  sops : SopsWorld

/-- Existence of a path inside the overlay checkout (file or directory). -/
def repoPathExists (env : SyncEnv) (p : String) : Bool :=
  p ∈ env.repoFiles || p ∈ env.repoDirs

/-- First path component (used for the `.git` / `.config` skips). -/
def firstComp (p : String) : String :=
  (pySplitSlash p).headD ""

/-- `sops.scan_encrypted_files` over the checkout's file listing. -/
def scan_encrypted_files (repoFiles : List String) : List String :=
  repoFiles.filter (fun p => is_encrypted_file p && firstComp p != ".git")

/-- `overlay._generate_mappings_from_repo`: identity mappings for every
regular file outside `.git`/`.config` that is neither an encrypted-file
record key nor explicitly excluded. -/
def generate_mappings_from_repo (repoFiles encKeys excludePaths : List String) :
    List Mapping :=
  (repoFiles.filter (fun p =>
    firstComp p != ".git" && firstComp p != ".config" &&
      !(p ∈ encKeys) && !(p ∈ excludePaths))).map (fun p => ⟨p, p⟩)

/-- Dict lookup on the `encrypted_files` association list. -/
def alGet (al : List (String × EncFileRecord)) (k : String) :
    Option EncFileRecord :=
  (al.find? (fun e => e.1 == k)).map (·.2)

/-- Dict assignment: update in place, else append (Python dict semantics). -/
def alSet : List (String × EncFileRecord) → String → EncFileRecord →
    List (String × EncFileRecord)
  | [], k, v => [(k, v)]
  | (k', v') :: rest, k, v =>
    if k' == k then (k, v) :: rest else (k', v') :: alSet rest k v

/-- A filesystem mutation performed by sync. -/
inductive Mut
  | unlinkPath (p : String)
  | rmtreePath (p : String)
  | mkdirPath (p : String)
  | symlinkPath (p : String) (target : String)
  | writeDecoded (p : String)
deriving DecidableEq, Repr

/-- The state threaded through sync's filesystem phases: the project map,
`symlinks_created`, `dirs_created`, the mutation trace, and the warning
count. -/
structure SyncFsSt where
  fs : Fs
  created : List String
  dirs : List String
  muts : List Mut
  warns : Nat

/-- Resolution of a normalized absolute-from-root component list. -/
def resolveComps (env : SyncEnv) (decodedFiles : List String) (fs : Fs)
    (p : List String) : Bool :=
  if p.take 2 = [".repoverlay", "repo"] then
    repoPathExists env (joinComps (p.drop 2))
  else if p.take 2 = [".repoverlay", "decoded"] then
    joinComps (p.drop 2) ∈ decodedFiles
  else
    (fs (joinComps p)).isSome

/-- Does the symlink at `dst` with target string `target` resolve
(`dst_path.exists()` on a symlink)? -/
def linkExists (env : SyncEnv) (decodedFiles : List String) (fs : Fs)
    (dst target : String) : Bool :=
  resolveComps env decodedFiles fs
    (normComps ((compsOf dst).dropLast ++ compsOf target))

/-- The ancestor chain recorded by the directory-creation code: joined
prefixes of the destination's parent components, shallowest first
(`for i in range(len(rel_parent.parts)): Path(*rel_parent.parts[:i+1])`). -/
def ancestorChain (dst : String) : List String :=
  (List.range ((compsOf dst).dropLast).length).map
    (fun i => joinComps (((compsOf dst).dropLast).take (i + 1)))

/-- Parent directory string of a destination. -/
def parentOf (dst : String) : String :=
  joinComps ((compsOf dst).dropLast)

/-- `mkdir(parents=True, exist_ok=True)` plus the `dirs_created` recording:
runs only when the parent does not exist; inserts a directory entry at every
absent ancestor and records every chain component not already recorded. -/
def mkdirParents (s : SyncFsSt) (dst : String) : SyncFsSt :=
  let parentP := parentOf dst
  if parentP = "" then s
  else if (s.fs parentP).isSome then s
  else
    let chain := ancestorChain dst
    let fs' := chain.foldl
      (fun f a => if (f a).isSome then f else fsSet f a .dir) s.fs
    let newMuts := (chain.filter (fun a => (s.fs a).isNone)).map Mut.mkdirPath
    let newDirs := chain.filter (fun a => !(a ∈ s.dirs))
    { s with fs := fs', muts := s.muts ++ newMuts, dirs := s.dirs ++ newDirs }

/-- The force-removal of an occupied destination (symlink/file unlinked,
directory recursively removed). -/
def forceRemoveDst (s : SyncFsSt) (p : String) : SyncFsSt :=
  match s.fs p with
  | some (.link _) =>
    { s with fs := fsRemove s.fs p, muts := s.muts ++ [.unlinkPath p] }
  | some .file =>
    { s with fs := fsRemove s.fs p, muts := s.muts ++ [.unlinkPath p] }
  | some .dir =>
    { s with fs := fsRemoveTree s.fs p, muts := s.muts ++ [.rmtreePath p] }
  | none => s

/-- `overlay._create_symlinks`: verify the source, resolve a destination
conflict (force-remove or abort), create parent directories, create the
relative symlink.  Returns the partially updated state together with the
error, if any (the Python exception aborts the rest of the loop). -/
def create_symlinks (env : SyncEnv) (force : Bool) :
    List Mapping → SyncFsSt → SyncFsSt × Option String
  | [], s => (s, none)
  | m :: rest, s =>
    if !(repoPathExists env m.src) then
      (s, some ("Source not found in overlay: " ++ m.src))
    else
      match s.fs m.dst with
      | some _ =>
        if force then
          let s1 := forceRemoveDst s m.dst
          let s2 := mkdirParents s1 m.dst
          let tgt := mappingLinkTarget m.src m.dst
          let s3 := { s2 with
            fs := fsSet s2.fs m.dst (FsEntry.link tgt),
            created := s2.created ++ [m.dst],
            muts := s2.muts ++ [.symlinkPath m.dst tgt] }
          create_symlinks env force rest s3
        else
          (s, some ("Destination already exists: " ++ m.dst))
      | none =>
        let s2 := mkdirParents s m.dst
        let tgt := mappingLinkTarget m.src m.dst
        let s3 := { s2 with
          fs := fsSet s2.fs m.dst (FsEntry.link tgt),
          created := s2.created ++ [m.dst],
          muts := s2.muts ++ [.symlinkPath m.dst tgt] }
        create_symlinks env force rest s3

/-- One step of sync's symlink-removal pass: unlink the path if it is still
a symlink on disk (`if dst_path.is_symlink(): dst_path.unlink()`). -/
def removalStep (s : SyncFsSt) (d : String) : SyncFsSt :=
  match s.fs d with
  | some (FsEntry.link _) =>
    { s with fs := fsRemove s.fs d, muts := s.muts ++ [.unlinkPath d] }
  | _ => s

/-- Create an exposure symlink for a decoded file (parent dirs, link,
bookkeeping) — the tail of one iteration of sync's encrypted-file loop. -/
def encCreate (s : SyncFsSt) (sdst target : String) : SyncFsSt :=
  let s2 := mkdirParents s sdst
  { s2 with
    fs := fsSet s2.fs sdst (FsEntry.link target),
    created := s2.created ++ [sdst],
    muts := s2.muts ++ [.symlinkPath sdst target] }

/-- One iteration of sync's encrypted-file exposure loop
(`overlay.sync_overlay` lines 499–551): skip when the record has no decoded
path, when the destination is already the correct symlink, or when the
decoded file is missing; on an occupied destination force-remove under
`force` but only *warn and continue* without it; otherwise create the
symlink. -/
def enc_expose_step (force : Bool) (decodedFiles : List String)
    (s : SyncFsSt) (entry : String × EncFileRecord) : SyncFsSt :=
  let dp := entry.2.decoded_path
  let sdst := entry.2.symlink_dst.getD dp
  if dp = "" then s
  else
    let expected := decodedLinkTarget dp sdst
    let skipCorrect :=
      match s.fs sdst with
      | some (.link t) => t == expected
      | _ => false
    if skipCorrect then s
    else if !(dp ∈ decodedFiles) then s
    else
      match s.fs sdst with
      | none => encCreate s sdst expected
      | some _ =>
        if force then encCreate (forceRemoveDst s sdst) sdst expected
        else { s with warns := s.warns + 1 }

/-- Sync's encrypted-file exposure loop.  It is a total fold: no iteration
can abort the sync. -/
def enc_expose (force : Bool) (decodedFiles : List String)
    (s : SyncFsSt) (entries : List (String × EncFileRecord)) : SyncFsSt :=
  entries.foldl (enc_expose_step force decodedFiles) s

/-- The new-encrypted-file pass of sync (lines 377–396): decrypt each newly
discovered encrypted file, adding a record on success and warning on
failure.  Returns `(records, decodedFiles, mutations, warnings)`. -/
def sync_new_enc (w : SopsWorld) :
    List String → List (String × EncFileRecord) → List String →
    List (String × EncFileRecord) × List String × List Mut × Nat
  | [], enc, decoded => (enc, decoded, [], 0)
  | f :: rest, enc, decoded =>
    let decodedName := get_decoded_path f
    if w.decryptOk f then
      let r := sync_new_enc w rest
        (alSet enc f ⟨decodedName, some decodedName, w.encHash f⟩)
        (fsAdd decodedName decoded)
      (r.1, r.2.1, .writeDecoded decodedName :: r.2.2.1, r.2.2.2)
    else
      let r := sync_new_enc w rest enc decoded
      (r.1, r.2.1, r.2.2.1, r.2.2.2 + 1)

/-- `sops.re_decrypt_if_changed` as called by sync: re-decrypt every record
whose live ciphertext hash drifted, updating the stored hash.  A decryption
failure raises out of the loop (the already-processed prefix keeps its
updates); sync catches it as a warning.  Returns
`(records, decodedFiles, mutations, ok?)`. -/
def re_decrypt_if_changed (w : SopsWorld) (repoFiles : List String) :
    List (String × EncFileRecord) → List String →
    List (String × EncFileRecord) × List String × List Mut × Bool
  | [], decoded => ([], decoded, [], true)
  | (p, meta) :: rest, decoded =>
    if p ∈ repoFiles then
      let h := w.encHash p
      if h ≠ meta.last_encrypted_hash then
        if w.decryptOk p then
          let r := re_decrypt_if_changed w repoFiles rest
            (fsAdd meta.decoded_path decoded)
          ((p, { meta with last_encrypted_hash := h }) :: r.1, r.2.1,
            .writeDecoded meta.decoded_path :: r.2.2.1, r.2.2.2)
        else
          ((p, meta) :: rest, decoded, [], false)
      else
        let r := re_decrypt_if_changed w repoFiles rest decoded
        ((p, meta) :: r.1, r.2.1, r.2.2.1, r.2.2.2)
    else
      let r := re_decrypt_if_changed w repoFiles rest decoded
      ((p, meta) :: r.1, r.2.1, r.2.2.1, r.2.2.2)

/-- The destinations contributed by encrypted records to the new symlink
set (`metadata.get("symlink_dst")`, truthy). -/
def encDsts (enc : List (String × EncFileRecord)) : List String :=
  enc.filterMap (fun e =>
    match e.2.symlink_dst with
    | some s => if s = "" then none else some s
    | none => none)

/-- The outcome of a sync run: the raised error (if any), the project
filesystem, the decoded listing, the persisted state document afterwards
(the input document if the run errored before the final write), the
mutation trace, and the warning count. -/
structure SyncOut where
  err : Option String
  fs : Fs
  decoded : List String
  stored : Option StateDoc
  muts : List Mut
  warns : Nat

/-- `overlay.sync_overlay`.  Dry-run mode is omitted (the claims are about
real runs); the repo-URL and gitignore warning checks touch neither the
filesystem nor the state and are omitted likewise. -/
def sync_overlay (env : SyncEnv) (force : Bool) (stored : Option StateDoc)
    (fs₀ : Fs) (decoded₀ : List String) : SyncOut :=
  if !env.repoCloned then
    ⟨some "Overlay repo not cloned. Run 'repoverlay clone' first",
      fs₀, decoded₀, stored, [], 0⟩
  else
    let st := read_state stored
    let enc₀ := st.encrypted_files
    let allEnc := scan_encrypted_files env.repoFiles
    let newEnc := allEnc.filter (fun f => (alGet enc₀ f).isNone)
    let phaseA :=
      if newEnc.isEmpty then (enc₀, decoded₀, ([] : List Mut), 0)
      else if !env.sops.sopsAvailable then (enc₀, decoded₀, [], 1)
      else sync_new_enc env.sops newEnc enc₀ decoded₀
    let enc₁ := phaseA.1
    let decoded₁ := phaseA.2.1
    let phaseB :=
      if enc₁.isEmpty then (enc₁, decoded₁, ([] : List Mut), 0)
      else
        match re_decrypt_if_changed env.sops env.repoFiles enc₁ decoded₁ with
        | (enc', decoded', muts', true) => (enc', decoded', muts', 0)
        | (enc', decoded', muts', false) => (enc', decoded', muts', 1)
    let enc₂ := phaseB.1
    let decoded₂ := phaseB.2.1
    let mutsAB := phaseA.2.2.1 ++ phaseB.2.2.1
    let warnsAB := phaseA.2.2.2 + phaseB.2.2.2
    let mappingsE : Except String (List Mapping) :=
      match env.explicitMappings with
      | some ms =>
        match validate_mappings ms with
        | some e => .error e
        | none => .ok ms
      | none =>
        .ok (generate_mappings_from_repo env.repoFiles
          (enc₂.map (·.1)) allEnc)
    match mappingsE with
    | .error e => ⟨some e, fs₀, decoded₂, stored, mutsAB, warnsAB⟩
    | .ok ms =>
      let filtered := filter_mappings ms env.ignorePatterns
      let old := st.symlinks.dedup
      let newL := (filtered.map (·.dst) ++ encDsts enc₂).dedup
      let orphans := (newL.filter (fun d => d ∈ old)).filter (fun d =>
        match fs₀ d with
        | some (.link t) => !(linkExists env decoded₂ fs₀ d t)
        | _ => false)
      let toRemove := old.filter (fun d => !(d ∈ newL)) ++ orphans
      let toCreate := filtered.filter (fun m =>
        match fs₀ m.dst with
        | some (.link t) => t ≠ mappingLinkTarget m.src m.dst
        | _ => true)
      let afterRemove : SyncFsSt :=
        toRemove.foldl removalStep ⟨fs₀, [], [], mutsAB, warnsAB⟩
      match create_symlinks env force toCreate afterRemove with
      | (sErr, some e) =>
        ⟨some e, sErr.fs, decoded₂, stored, sErr.muts, sErr.warns⟩
      | (s₁, none) =>
        let s₂ := enc_expose force decoded₂ s₁ enc₂
        let allSymlinks := (old.filter (fun d => !(d ∈ toRemove)) ++
          s₂.created).dedup
        let allDirs := (st.created_directories.dedup ++ s₂.dirs).dedup
        ⟨none, s₂.fs, decoded₂, some ⟨allSymlinks, allDirs, some enc₂⟩,
          s₂.muts, s₂.warns⟩

/-- A well-formed relative path: nonempty, with no empty, `.` or `..`
components. -/
def CleanPath (p : String) : Prop :=
  p ≠ "" ∧ ∀ c ∈ compsOf p, c ≠ "" ∧ c ≠ "." ∧ c ≠ ".."

instance (p : String) : Decidable (CleanPath p) := by
  unfold CleanPath
  infer_instance

/-- The mapping set sync works with: validated explicit mappings, or the
generated identity mappings (with no encrypted exclusions). -/
def mappingsOf (env : SyncEnv) : Except String (List Mapping) :=
  match env.explicitMappings with
  | some ms =>
    match validate_mappings ms with
    | some e => .error e
    | none => .ok ms
  | none => .ok (generate_mappings_from_repo env.repoFiles [] [])

/-- Sync's orphan detection: destinations in both the new and old sets whose
on-disk symlink no longer resolves. -/
def coreOrphans (env : SyncEnv) (d₀ : List String) (fs₀ : Fs)
    (old newL : List String) : List String :=
  (newL.filter (fun d => d ∈ old)).filter (fun d =>
    match fs₀ d with
    | some (FsEntry.link t) => !(linkExists env d₀ fs₀ d t)
    | _ => false)

/-- Sync's removal set: stale old destinations plus orphans. -/
def coreToRemove (env : SyncEnv) (d₀ : List String) (fs₀ : Fs)
    (old newL : List String) : List String :=
  old.filter (fun d => !(d ∈ newL)) ++ coreOrphans env d₀ fs₀ old newL

/-- Sync's creation set: mappings whose destination is not already the
exactly-correct symlink. -/
def coreToCreate (fs₀ : Fs) (filtered : List Mapping) : List Mapping :=
  filtered.filter (fun m =>
    match fs₀ m.dst with
    | some (FsEntry.link t) => t ≠ mappingLinkTarget m.src m.dst
    | _ => true)

/-- The mapping set after the ignore filter. -/
def coreFiltered (env : SyncEnv) (ms : List Mapping) : List Mapping :=
  filter_mappings ms env.ignorePatterns

/-- The old symlink set read from state. -/
def coreOld (stored : Option StateDoc) : List String :=
  (read_state stored).symlinks.dedup

/-- The new symlink set (no encrypted contributions in the core). -/
def coreNewL (env : SyncEnv) (ms : List Mapping) : List String :=
  ((coreFiltered env ms).map (fun m => m.dst) ++ ([] : List String)).dedup

/-- The removal set of a core run. -/
def coreRemoveSet (env : SyncEnv) (stored : Option StateDoc) (fs₀ : Fs)
    (decoded₀ : List String) (ms : List Mapping) : List String :=
  coreToRemove env decoded₀ fs₀ (coreOld stored) (coreNewL env ms)

/-- The loop state after the removal pass. -/
def coreAfterRemove (env : SyncEnv) (stored : Option StateDoc) (fs₀ : Fs)
    (decoded₀ : List String) (ms : List Mapping) : SyncFsSt :=
  (coreRemoveSet env stored fs₀ decoded₀ ms).foldl removalStep
    ⟨fs₀, [], [], [], 0⟩

/-- The reconciliation pass of `syncCore` once the mapping set is fixed. -/
def syncCoreOk (env : SyncEnv) (force : Bool) (stored : Option StateDoc)
    (fs₀ : Fs) (decoded₀ : List String) (ms : List Mapping) : SyncOut :=
  match create_symlinks env force (coreToCreate fs₀ (coreFiltered env ms))
      (coreAfterRemove env stored fs₀ decoded₀ ms) with
  | (sErr, some e) =>
    ⟨some e, sErr.fs, decoded₀, stored, sErr.muts, sErr.warns⟩
  | (s₁, none) =>
    ⟨none, s₁.fs, decoded₀,
      some ⟨((coreOld stored).filter
          (fun d => !(d ∈ coreRemoveSet env stored fs₀ decoded₀ ms)) ++
          s₁.created).dedup,
        ((read_state stored).created_directories.dedup ++ s₁.dirs).dedup,
        some []⟩,
      s₁.muts, s₁.warns⟩

/-- `sync_overlay` specialized to a world without encrypted files: the
scan finds nothing, both decryption phases pass through, and the exposure
loop is empty.  `sync_overlay` provably coincides with this core whenever
the persisted state has no encrypted-file records and the checkout has no
encryption-suffixed files (`sync_overlay_eq_core`). -/
def syncCore (env : SyncEnv) (force : Bool) (stored : Option StateDoc)
    (fs₀ : Fs) (decoded₀ : List String) : SyncOut :=
  if !env.repoCloned then
    ⟨some "Overlay repo not cloned. Run 'repoverlay clone' first",
      fs₀, decoded₀, stored, [], 0⟩
  else
    match mappingsOf env with
    | .error e => ⟨some e, fs₀, decoded₀, stored, [], 0⟩
    | .ok ms => syncCoreOk env force stored fs₀ decoded₀ ms

/-- The idempotence property exactly as the claim states it: after any
successful sync, an immediate re-run with the same environment performs
zero filesystem mutations and leaves the persisted state document
unchanged. -/
def syncIdempotentClaim : Prop :=
  ∀ (env : SyncEnv) (force : Bool) (stored : Option StateDoc)
    (fs₀ : Fs) (decoded₀ : List String),
    (sync_overlay env force stored fs₀ decoded₀).err = none →
    (sync_overlay env force (sync_overlay env force stored fs₀ decoded₀).stored
      (sync_overlay env force stored fs₀ decoded₀).fs
      (sync_overlay env force stored fs₀ decoded₀).decoded).muts = [] ∧
    (sync_overlay env force (sync_overlay env force stored fs₀ decoded₀).stored
      (sync_overlay env force stored fs₀ decoded₀).fs
      (sync_overlay env force stored fs₀ decoded₀).decoded).stored =
      (sync_overlay env force stored fs₀ decoded₀).stored

/-- A concrete one-file environment with no encryption anywhere, used to
exhibit an idempotent sync run. -/
def noEncEnv : SyncEnv :=
  ⟨true, ["a.txt"], [], none, [], ⟨true, fun _ => true, fun _ => ""⟩⟩

end Repoverlay

/-! # Theorems -/

namespace Repoverlay

theorem validate_path_false_iff (p : String) :
    validate_path p false = none ↔ ¬ hasTraversal p := by
  unfold validate_path hasTraversal
  by_cases h : ".." ∈ pySplitSlash (pyReplaceBackslash p) <;> simp [h]

theorem validate_path_true_iff (p : String) :
    validate_path p true = none ↔ ¬ hasTraversal p ∧ ¬ dstForbidden p := by
  unfold validate_path
  by_cases h0 : ".." ∈ pySplitSlash (pyReplaceBackslash p)
  · rw [if_pos h0]
    have ht : hasTraversal p := h0
    simp [ht]
  · rw [if_neg h0, if_pos rfl]
    have ht : ¬ hasTraversal p := h0
    split_ifs with h1 h2 h3 h4 h5
    · have hf : dstForbidden p := Or.inl h1
      simp [hf]
    · simp only [Bool.or_eq_true, beq_iff_eq] at h2
      have hf : dstForbidden p := Or.inr (Or.inl h2)
      simp [hf]
    · simp only [Bool.or_eq_true, beq_iff_eq] at h3
      have hf : dstForbidden p := Or.inr (Or.inr (Or.inl h3))
      simp [hf]
    · have hf : dstForbidden p :=
        Or.inr (Or.inr (Or.inr (Or.inl (beq_iff_eq.mp h4))))
      simp [hf]
    · have hf : dstForbidden p :=
        Or.inr (Or.inr (Or.inr (Or.inr (beq_iff_eq.mp h5))))
      simp [hf]
    · simp only [Bool.or_eq_true, beq_iff_eq, not_or] at h2 h3
      have hf : ¬ dstForbidden p := by
        unfold dstForbidden
        push_neg
        refine ⟨?_, ⟨h2.1, ?_⟩, ⟨h3.1, ?_⟩, ?_, ?_⟩
        · simpa using h1
        · simpa using h2.2
        · simpa using h3.2
        · simpa using h4
        · simpa using h5
      simp [ht, hf]

theorem collect_ok_iff (ms : List Mapping) (acc : List String) :
    (∃ d, collectDestinations ms acc = .ok d) ↔
      ((∀ m ∈ ms, validate_path m.src false = none ∧
          validate_path m.dst true = none) ∧
        (ms.map Mapping.dst).Nodup ∧ ∀ m ∈ ms, m.dst ∉ acc) := by
  induction ms generalizing acc with
  | nil => simp [collectDestinations]
  | cons m rest ih =>
    simp only [collectDestinations]
    cases hs : validate_path m.src false with
    | some e => simp [hs]
    | none =>
      cases hd : validate_path m.dst true with
      | some e => simp [hs, hd]
      | none =>
        by_cases hmem : m.dst ∈ acc
        · simp [hmem, hs, hd]
        · rw [if_neg hmem, ih]
          constructor
          · rintro ⟨hv, hnd, hacc⟩
            have haccm : ∀ m' ∈ rest, m'.dst ∉ acc ∧ m'.dst ≠ m.dst := by
              intro m' hm'
              have hthis := hacc m' hm'
              simp only [List.mem_append, List.mem_singleton, not_or] at hthis
              exact hthis
            refine ⟨?_, ?_, ?_⟩
            · intro m' hm'
              rcases List.mem_cons.mp hm' with h | h
              · subst h
                exact ⟨hs, hd⟩
              · exact hv m' h
            · simp only [List.map_cons, List.nodup_cons]
              refine ⟨?_, hnd⟩
              rw [List.mem_map]
              rintro ⟨m', hm', hdst⟩
              exact (haccm m' hm').2 hdst
            · intro m' hm'
              rcases List.mem_cons.mp hm' with h | h
              · subst h
                exact hmem
              · exact (haccm m' h).1
          · rintro ⟨hv, hnd, hacc⟩
            simp only [List.map_cons, List.nodup_cons, List.mem_map] at hnd
            refine ⟨fun m' hm' => hv m' (List.mem_cons_of_mem m hm'), hnd.2, ?_⟩
            intro m' hm'
            simp only [List.mem_append, List.mem_singleton, not_or]
            exact ⟨hacc m' (List.mem_cons_of_mem m hm'),
              fun hdst => hnd.1 ⟨m', hm', hdst⟩⟩

theorem collect_ok_val :
    ∀ (ms : List Mapping) (acc d : List String),
      collectDestinations ms acc = .ok d → d = acc ++ ms.map Mapping.dst := by
  intro ms
  induction ms with
  | nil =>
    intro acc d h
    simp [collectDestinations] at h
    simp [h]
  | cons m rest ih =>
    intro acc d h
    simp only [collectDestinations] at h
    cases hs : validate_path m.src false with
    | some e => simp [hs] at h
    | none =>
      rw [hs] at h
      cases hd : validate_path m.dst true with
      | some e => simp [hd] at h
      | none =>
        rw [hd] at h
        by_cases hmem : m.dst ∈ acc
        · simp [hmem] at h
        · rw [if_neg hmem] at h
          have := ih (acc ++ [m.dst]) d h
          simp [this, List.append_assoc]

theorem checkOverlapSorted_eq_none_iff (l : List String) :
    checkOverlapSorted l = none ↔
      l.Pairwise (fun p c => ¬ pyStartswith c (p ++ "/") = true) := by
  induction l with
  | nil => simp [checkOverlapSorted]
  | cons p rest ih =>
    simp only [checkOverlapSorted]
    cases hf : rest.find? (fun c => pyStartswith c (p ++ "/")) with
    | some c =>
      simp only [reduceCtorEq, false_iff, List.pairwise_cons, not_and]
      intro hall
      exact absurd (List.find?_some hf)
        (by simpa using hall c (List.mem_of_find?_eq_some hf))
    | none =>
      have hnone := List.find?_eq_none.mp hf
      simp only [List.pairwise_cons, ih]
      constructor
      · intro h
        exact ⟨fun c hc => by simpa using hnone c hc, h⟩
      · rintro ⟨_, h⟩
        exact h

theorem length_lt_of_sep_pyStartswith {a b : String}
    (h : pyStartswith b (a ++ "/") = true) : a.length < b.length := by
  unfold pyStartswith at h
  have hle : (a ++ "/").data.length ≤ b.data.length :=
    (List.isPrefixOf_iff_prefix.mp h).length_le
  have h2 : (a ++ "/").length ≤ b.length := hle
  rw [String.length_append] at h2
  have h3 : ("/" : String).length = 1 := rfl
  omega

theorem check_overlapping_none_iff (d : List String) :
    check_overlapping_paths d = none ↔
      ∀ a ∈ d, ∀ b ∈ d, ¬ pyStartswith b (a ++ "/") = true := by
  unfold check_overlapping_paths
  rw [checkOverlapSorted_eq_none_iff]
  have hperm := d.mergeSort_perm (fun a b => a.length ≤ b.length)
  have hsorted := @List.sorted_mergeSort String
    (fun a b : String => decide (a.length ≤ b.length))
    (fun a b c hab hbc => by
      simp only [decide_eq_true_eq] at *
      omega)
    (fun a b => by
      simp only [Bool.or_eq_true, decide_eq_true_eq]
      omega) d
  constructor
  · intro hp a ha b hb hc
    obtain ⟨i, hi, hia⟩ := List.mem_iff_getElem.mp (hperm.mem_iff.mpr ha)
    obtain ⟨j, hj, hjb⟩ := List.mem_iff_getElem.mp (hperm.mem_iff.mpr hb)
    rcases lt_trichotomy i j with hij | hij | hij
    · exact (List.pairwise_iff_getElem.mp hp i j hi hj hij)
        (by rw [hia, hjb]; exact hc)
    · subst hij
      rw [hia] at hjb
      subst hjb
      exact absurd (length_lt_of_sep_pyStartswith hc) (by omega)
    · have hlen := List.pairwise_iff_getElem.mp hsorted j i hj hi hij
      rw [hia, hjb] at hlen
      simp only [decide_eq_true_eq] at hlen
      exact absurd (length_lt_of_sep_pyStartswith hc) (by omega)
  · intro h
    rw [List.pairwise_iff_getElem]
    intro i j hi hj hij hc
    exact h _ (hperm.mem_iff.mp (List.getElem_mem hi))
      _ (hperm.mem_iff.mp (List.getElem_mem hj)) hc

/-- **C5.** `validate_mappings` rejects a mapping set exactly when some `src`
or `dst` has a `..` segment, some `dst` is absolute or equals / is nested
under the VCS-metadata or tool-management paths, two mappings share a `dst`,
or one `dst` plus the separator is a prefix of another `dst`; otherwise it
returns normally (the embedding is a pure function, so success has no side
effects). -/
theorem validate_mappings_rejects_iff (ms : List Mapping) :
    validate_mappings ms ≠ none ↔ claimRejects ms := by
  unfold validate_mappings
  cases hcol : collectDestinations ms [] with
  | error e =>
    simp only [ne_eq, reduceCtorEq, not_false_eq_true, true_iff]
    have hnot : ¬ ((∀ m ∈ ms, validate_path m.src false = none ∧
        validate_path m.dst true = none) ∧ (ms.map Mapping.dst).Nodup ∧
        ∀ m ∈ ms, m.dst ∉ ([] : List String)) := by
      rw [← collect_ok_iff]
      rw [hcol]
      simp
    by_cases hv : ∀ m ∈ ms, validate_path m.src false = none ∧
        validate_path m.dst true = none
    · by_cases hnd : (ms.map Mapping.dst).Nodup
      · exact absurd ⟨hv, hnd, by simp⟩ hnot
      · exact Or.inr (Or.inr (Or.inl hnd))
    · push_neg at hv
      obtain ⟨m, hm, hbad⟩ := hv
      by_cases hsrc : validate_path m.src false = none
      · have hdst := hbad hsrc
        have hdst' : ¬ (¬ hasTraversal m.dst ∧ ¬ dstForbidden m.dst) :=
          fun hcontra => hdst ((validate_path_true_iff m.dst).mpr hcontra)
        push_neg at hdst'
        by_cases htrav : hasTraversal m.dst
        · exact Or.inl ⟨m, hm, Or.inr htrav⟩
        · exact Or.inr (Or.inl ⟨m, hm, hdst' htrav⟩)
      · have htrav : hasTraversal m.src := by
          by_contra hcon
          exact hsrc ((validate_path_false_iff m.src).mpr hcon)
        exact Or.inl ⟨m, hm, Or.inl htrav⟩
  | ok d =>
    have hok := (collect_ok_iff ms []).mp ⟨d, hcol⟩
    have hd := collect_ok_val ms [] d hcol
    simp only [List.nil_append] at hd
    subst hd
    have hnot1 : ¬ ∃ m ∈ ms, hasTraversal m.src ∨ hasTraversal m.dst := by
      rintro ⟨m, hm, hcase⟩
      obtain ⟨hsrc, hdst⟩ := hok.1 m hm
      rw [validate_path_false_iff] at hsrc
      rw [validate_path_true_iff] at hdst
      rcases hcase with h | h
      · exact hsrc h
      · exact hdst.1 h
    have hnot2 : ¬ ∃ m ∈ ms, dstForbidden m.dst := by
      rintro ⟨m, hm, hcase⟩
      exact ((validate_path_true_iff m.dst).mp (hok.1 m hm).2).2 hcase
    have hnot3 : ¬ ¬ (ms.map Mapping.dst).Nodup := not_not_intro hok.2.1
    unfold claimRejects
    constructor
    · intro hne
      have : ¬ ∀ a ∈ ms.map Mapping.dst, ∀ b ∈ ms.map Mapping.dst,
          ¬ pyStartswith b (a ++ "/") = true := by
        intro hall
        exact hne ((check_overlapping_none_iff _).mpr hall)
      push_neg at this
      obtain ⟨a, ha, b, hb, hab⟩ := this
      exact Or.inr (Or.inr (Or.inr ⟨a, ha, b, hb, hab⟩))
    · rintro (h | h | h | h)
      · exact absurd h hnot1
      · exact absurd h hnot2
      · exact absurd h hnot3
      · obtain ⟨a, ha, b, hb, hab⟩ := h
        intro hzero
        exact ((check_overlapping_none_iff _).mp hzero) a ha b hb hab

/-- **C10.** The validator never rejects a mapping for an absolute `src`: for
a mapping whose `src` is absolute with no `..` segment and whose `dst` passes
the destination checks, `validate_mappings` succeeds. -/
theorem validate_mappings_absolute_src_ok (m : Mapping)
    (habs : pyStartswith m.src "/" = true)
    (htrav : ¬ hasTraversal m.src)
    (hdst : validate_path m.dst true = none) :
    validate_mappings [m] = none := by
  have hsrc : validate_path m.src false = none :=
    (validate_path_false_iff m.src).mpr htrav
  have hcol : collectDestinations [m] [] = .ok [m.dst] := by
    simp [collectDestinations, hsrc, hdst]
  unfold validate_mappings
  rw [hcol]
  refine (check_overlapping_none_iff [m.dst]).mpr ?_
  intro a ha b hb hc
  simp only [List.mem_singleton] at ha hb
  subst ha
  subst hb
  exact absurd (length_lt_of_sep_pyStartswith hc) (by omega)

/-- **C6.** Contrary to the claim (and to `_matches_pattern`'s own
docstring, which says `*` matches any run of characters *except* the path
separator), the matcher delegates to Python `fnmatch`, whose `*` crosses
`/`: the pattern `a/*` matches the path `a/b/c` as a full-path match.  The
pattern contains `/`, so no filename-only fallback is involved — the match
comes solely from the full-path `fnmatch` call. -/
theorem matches_pattern_star_crosses_separator :
    matches_pattern "a/b/c" "a/*" = true := by
  simp [matches_pattern, pySplitStarStar, splitSSChars, pyFnmatch, fnmatchList]

theorem validate_mappings_absolute_src_ok_witness :
    pyStartswith "/etc/conf" "/" = true ∧
      ¬ hasTraversal "/etc/conf" ∧
      validate_path "conf" true = none ∧
      validate_mappings [⟨"/etc/conf", "conf"⟩] = none := by
  refine ⟨by decide, by decide, by decide, ?_⟩
  exact validate_mappings_absolute_src_ok ⟨"/etc/conf", "conf"⟩
    (by decide) (by decide) (by decide)

/-- **C9 (amended).** The clone operation classifies the reference as remote
iff it contains `://`, or starts with the literal `git@` and contains a `:`
anywhere.  (The original claim's "any user name followed by `@host:`" is
refuted by the counterexample below.) -/
theorem is_local_path_remote_iff (repo : String) :
    is_local_path repo = false ↔
      (pyContains repo "://" = true ∨
        (pyStartswith repo "git@" = true ∧ pyContains repo ":" = true)) := by
  unfold is_local_path
  split_ifs with h
  · simp only [Bool.or_eq_true, Bool.and_eq_true] at h
    simp [h]
  · simp only [Bool.or_eq_true, Bool.and_eq_true] at h
    constructor
    · intro hcon
      exact absurd hcon (by simp)
    · intro hr
      exact absurd hr h

/-- **C9 counterexample.** `alice@example.com:repo.git` is an SSH-style
`user@host:` reference, yet `_is_local_path` classifies it as local: the
code's heuristic only recognizes the literal prefix `git@`, not arbitrary
user names. -/
theorem is_local_path_claim_counterexample :
    ¬ (∀ repo : String, is_local_path repo = false ↔
        (pyContains repo "://" = true ∨ sshStylePrefixed repo)) := by
  intro hclaim
  have hssh : sshStylePrefixed "alice@example.com:repo.git" :=
    ⟨"alice", "example.com", "repo.git", by decide, by decide, by decide⟩
  have h1 := (hclaim "alice@example.com:repo.git").mpr (Or.inr hssh)
  have h2 : is_local_path "alice@example.com:repo.git" = true := by decide
  rw [h1] at h2
  exact absurd h2 (by decide)

/-- **C1.** Evidence for the code bug: when the overlay checkout already
exists, `clone_overlay` fails with "already cloned" without `force`, but
under `force` it removes the checkout *unconditionally* — the git
collaborator's report of unpushed commits (required by the spec and by the
repository's own tests `test_force_clone_blocked_with_unpushed_commits` /
`test_force_clone_blocked_with_uncommitted_changes`) is never consulted. -/
theorem clone_precheck_force_skips_vcs_check (git : GitWorld) (dryRun : Bool)
    (h : 0 < git.unpushedCount) :
    clone_precheck git true false dryRun =
        .error "Already cloned. Remove .repoverlay/ to re-clone or use --force" ∧
      (has_unpushed_commits git).1 = true ∧
      clone_precheck git true true false = .ok [.removeRepoDir] := by
  refine ⟨rfl, ?_, rfl⟩
  simp [has_unpushed_commits, h]

theorem clone_precheck_force_skips_vcs_check_witness :
    0 < (⟨1, []⟩ : GitWorld).unpushedCount ∧
      (clone_precheck ⟨1, []⟩ true false false =
          .error "Already cloned. Remove .repoverlay/ to re-clone or use --force" ∧
        (has_unpushed_commits ⟨1, []⟩).1 = true ∧
        clone_precheck ⟨1, []⟩ true true false = .ok [.removeRepoDir]) :=
  ⟨by decide, clone_precheck_force_skips_vcs_check ⟨1, []⟩ false (by decide)⟩

/-- **C2.** When the overlay checkout exists with VCS metadata and the git
collaborator reports a nonzero unpushed-commit count, `unlink_overlay`
fails with `UnpushedCommitsError` carrying that count, for every
`removeRepo`/`force`/`dryRun` combination.  In this embedding an error
outcome carries no removal record: the Python code raises before the
removal loops run, so no removals are performed. -/
theorem unlink_blocks_on_unpushed (w : UnlinkWorld)
    (removeRepo force dryRun : Bool)
    (h1 : w.repoDirExists = true) (h2 : w.dotGitExists = true)
    (h3 : 0 < w.git.unpushedCount) :
    unlink_overlay w removeRepo force dryRun =
      .error (.unpushedCommits w.git.unpushedCount) := by
  unfold unlink_overlay
  simp [h1, h2, has_unpushed_commits, h3]

theorem unlink_blocks_on_unpushed_witness :
    0 < (2 : Nat) ∧
      unlink_overlay ⟨true, true, ⟨2, []⟩, none, [], [], false⟩ false true false =
        .error (.unpushedCommits 2) :=
  ⟨by decide,
    unlink_blocks_on_unpushed ⟨true, true, ⟨2, []⟩, none, [], [], false⟩
      false true false rfl rfl (by decide)⟩

/-- **C8.** After `unlink_overlay` completes without `removeRepo` (and not
in dry-run), the state document on disk reads back as the empty
reconciliation state: symlinks and created directories cleared, and the
encrypted-file records map cleared as well (the written document has no
`encrypted_files` key, and `read_state` defaults it to empty). -/
theorem unlink_clears_state (w : UnlinkWorld) (force : Bool)
    (r : UnlinkResult)
    (h : unlink_overlay w false force false = .ok r) :
    read_state r.stored = ⟨[], [], []⟩ := by
  unfold unlink_overlay at h
  split_ifs at h with hA hB hC hD
  · exact hC.elim
  · simp at hD
  · simp only [Except.ok.injEq] at h
    subst h
    rfl

theorem unlink_clears_state_witness :
    unlink_overlay ⟨false, false, ⟨0, []⟩, some ⟨["a.txt"], ["d"], some []⟩,
        ["a.txt"], ["d"], false⟩ false false false =
      .ok ⟨["a.txt"], ["d"], false, some ⟨[], [], none⟩⟩ ∧
    read_state (some (⟨[], [], none⟩ : StateDoc)) = ⟨[], [], []⟩ :=
  ⟨rfl,
    unlink_clears_state
      ⟨false, false, ⟨0, []⟩, some ⟨["a.txt"], ["d"], some []⟩,
        ["a.txt"], ["d"], false⟩ false
      ⟨["a.txt"], ["d"], false, some ⟨[], [], none⟩⟩ rfl⟩

theorem mem_foldl_erase (wr : List String) :
    ∀ (fs : List String), fs.Nodup → ∀ x,
      (x ∈ wr.foldl (fun a d => a.erase d) fs ↔ x ∈ fs ∧ x ∉ wr) := by
  induction wr with
  | nil => simp
  | cons d rest ih =>
    intro fs hnd x
    simp only [List.foldl_cons]
    rw [ih (fs.erase d) (hnd.erase d)]
    constructor
    · rintro ⟨hx, hxr⟩
      have hmem := (List.Nodup.mem_erase_iff hnd).mp hx
      refine ⟨hmem.2, ?_⟩
      simp only [List.mem_cons, not_or]
      exact ⟨hmem.1, hxr⟩
    · rintro ⟨hx, hxr⟩
      simp only [List.mem_cons, not_or] at hxr
      exact ⟨(List.Nodup.mem_erase_iff hnd).mpr ⟨hxr.1, hx⟩, hxr.2⟩

theorem fsAdd_nodup {p : String} {fs : List String} (h : fs.Nodup) :
    (fsAdd p fs).Nodup := by
  unfold fsAdd
  split_ifs with hmem
  · exact h
  · simpa [List.nodup_append] using ⟨h, hmem⟩

theorem mem_fsAdd {x p : String} {fs : List String} :
    x ∈ fsAdd p fs ↔ x = p ∨ x ∈ fs := by
  unfold fsAdd
  split_ifs with hmem
  · constructor
    · exact Or.inr
    · rintro (rfl | h)
      · exact hmem
      · exact h
  · simp [List.mem_append, or_comm]

theorem decrypt_all_loop_spec (w : SopsWorld) (fs₀ : List String) :
    ∀ (l : List String), ∀ (fs written : List String),
      ∀ (acc : List (String × EncFileRecord)),
      fs.Nodup → (∀ x ∈ fs, x ∈ fs₀ ∨ x ∈ written) →
      (∃ f ∈ l, w.decryptOk f = false) →
      ∃ e, (decrypt_all_loop w l fs written acc).result = .error e ∧
        (∀ d ∈ (decrypt_all_loop w l fs written acc).written,
          d ∉ (decrypt_all_loop w l fs written acc).decodedFs) ∧
        (∀ x ∈ (decrypt_all_loop w l fs written acc).decodedFs, x ∈ fs₀) := by
  intro l
  induction l with
  | nil =>
    rintro fs written acc _ _ ⟨f, hf, _⟩
    simp at hf
  | cons f rest ih =>
    intro fs written acc hnd hsub hfail
    simp only [decrypt_all_loop]
    by_cases hok : w.decryptOk f = true
    · rw [if_pos hok]
      apply ih
      · exact fsAdd_nodup hnd
      · intro x hx
        rcases mem_fsAdd.mp hx with rfl | hxf
        · exact Or.inr (by simp)
        · rcases hsub x hxf with h | h
          · exact Or.inl h
          · exact Or.inr (by simp [h])
      · obtain ⟨g, hg, hgf⟩ := hfail
        rcases List.mem_cons.mp hg with rfl | hgr
        · exact absurd hok (by simp [hgf])
        · exact ⟨g, hgr, hgf⟩
    · rw [if_neg hok]
      refine ⟨.decryptionFailed f, rfl, ?_, ?_⟩
      · intro d hd
        rw [mem_foldl_erase written fs hnd d]
        rintro ⟨_, hdw⟩
        exact hdw hd
      · intro x hx
        rw [mem_foldl_erase written fs hnd x] at hx
        rcases hsub x hx.1 with h | h
        · exact h
        · exact absurd h hx.2

/-- **C3.** The bulk decryption pass is atomic as a batch: if any single
decryption fails, the run errors out, every plaintext written during the
batch is deleted before the error propagates, and in particular a fresh
(empty) decoded directory is left empty — no partial decoded tree remains. -/
theorem decrypt_all_files_batch_atomic (w : SopsWorld)
    (files fs₀ : List String) (hnd : fs₀.Nodup)
    (hfail : ∃ f ∈ files, w.decryptOk f = false) :
    (∃ e, (decrypt_all_files w files fs₀).result = .error e) ∧
      (∀ d ∈ (decrypt_all_files w files fs₀).written,
        d ∉ (decrypt_all_files w files fs₀).decodedFs) ∧
      (fs₀ = [] → (decrypt_all_files w files fs₀).decodedFs = []) := by
  unfold decrypt_all_files
  by_cases hemp : files.isEmpty
  · obtain ⟨f, hf, _⟩ := hfail
    rw [List.isEmpty_iff] at hemp
    subst hemp
    simp at hf
  · rw [if_neg hemp]
    by_cases hav : w.sopsAvailable
    · rw [if_neg (by simp [hav])]
      obtain ⟨e, he, hw, hfs⟩ := decrypt_all_loop_spec w fs₀ files fs₀ [] []
        hnd (fun x hx => Or.inl hx) hfail
      refine ⟨⟨e, he⟩, hw, fun h0 => ?_⟩
      subst h0
      exact List.eq_nil_iff_forall_not_mem.mpr
        (fun x hx => by simpa using hfs x hx)
    · rw [if_pos (by simp [hav])]
      exact ⟨⟨.notAvailable, rfl⟩, by simp, fun h0 => by simp [h0]⟩

theorem decrypt_all_files_batch_atomic_witness :
    ([] : List String).Nodup ∧
      (∃ f ∈ ["a.enc"], (fun _ => false : String → Bool) f = false) ∧
      ((∃ e, (decrypt_all_files ⟨true, fun _ => false, fun _ => "sha256:x"⟩
          ["a.enc"] []).result = .error e) ∧
        (∀ d ∈ (decrypt_all_files ⟨true, fun _ => false, fun _ => "sha256:x"⟩
            ["a.enc"] []).written,
          d ∉ (decrypt_all_files ⟨true, fun _ => false, fun _ => "sha256:x"⟩
            ["a.enc"] []).decodedFs) ∧
        (([] : List String) = [] →
          (decrypt_all_files ⟨true, fun _ => false, fun _ => "sha256:x"⟩
            ["a.enc"] []).decodedFs = [])) :=
  ⟨List.nodup_nil, ⟨"a.enc", by simp, rfl⟩,
    decrypt_all_files_batch_atomic ⟨true, fun _ => false, fun _ => "sha256:x"⟩
      ["a.enc"] [] List.nodup_nil ⟨"a.enc", by simp, rfl⟩⟩

/-- **C7.** In sync's encrypted-file exposure phase, a record whose
destination is occupied (and is not already the correct symlink) while the
decoded file exists is, without `force`, handled by emitting a warning and
skipping just that record: the loop state is unchanged except for the
warning count, and processing continues with the remaining records.  The
loop is a total function into `SyncFsSt` — no iteration can raise, so sync
never aborts because of a single encrypted-file destination conflict. -/
theorem enc_expose_conflict_warns_and_skips
    (decodedFiles : List String) (s : SyncFsSt) (e : String × EncFileRecord)
    (post : List (String × EncFileRecord))
    (hdp : e.2.decoded_path ≠ "")
    (hsrc : e.2.decoded_path ∈ decodedFiles)
    (hconflict : (s.fs (e.2.symlink_dst.getD e.2.decoded_path)).isSome = true)
    (hnotcorrect : ∀ t,
      s.fs (e.2.symlink_dst.getD e.2.decoded_path) = some (FsEntry.link t) →
      t ≠ decodedLinkTarget e.2.decoded_path
        (e.2.symlink_dst.getD e.2.decoded_path)) :
    enc_expose false decodedFiles s (e :: post) =
      enc_expose false decodedFiles { s with warns := s.warns + 1 } post := by
  unfold enc_expose
  simp only [List.foldl_cons]
  congr 1
  cases hfs : s.fs (e.2.symlink_dst.getD e.2.decoded_path) with
  | none => simp [hfs] at hconflict
  | some ent =>
    cases ent with
    | file => simp [enc_expose_step, hfs, hdp, hsrc]
    | dir => simp [enc_expose_step, hfs, hdp, hsrc]
    | link t =>
      have hne := hnotcorrect t hfs
      simp [enc_expose_step, hfs, hdp, hsrc, hne]

theorem enc_expose_conflict_warns_and_skips_witness :
    (("sec.yaml" : String) ≠ "" ∧
      ("sec.yaml" : String) ∈ ["sec.yaml"] ∧
      ((fun q => if q = "sec.yaml" then some FsEntry.file else none)
        (((some "sec.yaml" : Option String)).getD "sec.yaml")).isSome = true) ∧
    enc_expose false ["sec.yaml"]
        ⟨fun q => if q = "sec.yaml" then some FsEntry.file else none,
          [], [], [], 0⟩
        [("sec.yaml.enc", ⟨"sec.yaml", some "sec.yaml", "h"⟩)] =
      enc_expose false ["sec.yaml"]
        { (⟨fun q => if q = "sec.yaml" then some FsEntry.file else none,
            [], [], [], 0⟩ : SyncFsSt) with
          warns := 0 + 1 } [] := by
  refine ⟨⟨by decide, by simp, by decide⟩, ?_⟩
  exact enc_expose_conflict_warns_and_skips ["sec.yaml"]
    ⟨fun q => if q = "sec.yaml" then some FsEntry.file else none, [], [], [], 0⟩
    ("sec.yaml.enc", ⟨"sec.yaml", some "sec.yaml", "h"⟩) []
    (by decide) (by simp) (by decide)
    (by
      intro t h
      simp at h)

/-- **C4 counterexample.** Sync is *not* idempotent as claimed.  Concrete
scenario: the overlay checkout contains both `config.yaml` and
`config.yaml.enc`, and the persisted encrypted-file record exposes the
decrypted plaintext at `config.yaml` — the same destination the generated
mapping uses for the plain file.  With `force`, every sync first re-points
the symlink at the repo file (mapping pass) and then re-points it at the
decoded file (exposure pass), so the run after a successful run still
unlinks and recreates the symlink: its mutation list is nonempty. -/
theorem sync_idempotence_counterexample : ¬ syncIdempotentClaim := by
  intro h
  have hc := h
    ⟨true, ["config.yaml", "config.yaml.enc"], [], none, [],
      ⟨true, fun _ => true, fun _ => "h"⟩⟩
    true
    (some ⟨[], [],
      some [("config.yaml.enc", ⟨"config.yaml", some "config.yaml", "h"⟩)]⟩)
    (fun _ => none)
    ["config.yaml"]
    (by decide)
  exact absurd hc.1 (by decide)

/-! Path algebra: split/join round trips, normalization, `relpath`. -/

theorem splitCharList_ne_nil (sep : Char) (cs : List Char) :
    splitCharList sep cs ≠ [] := by
  induction cs with
  | nil => simp [splitCharList]
  | cons c cs ih =>
    simp only [splitCharList]
    split_ifs
    · simp
    · cases h : splitCharList sep cs with
      | nil => simp
      | cons g gs => simp

theorem joinComps_cons_cons (a b : String) (rest : List String) :
    joinComps (a :: b :: rest) = a ++ "/" ++ joinComps (b :: rest) := rfl

theorem data_joinComps_split (cs : List Char) :
    (joinComps ((splitCharList '/' cs).map String.mk)).data = cs := by
  induction cs with
  | nil => rfl
  | cons c cs ih =>
    simp only [splitCharList]
    by_cases hc : c = '/'
    · rw [if_pos hc]
      cases hr : splitCharList '/' cs with
      | nil => exact absurd hr (splitCharList_ne_nil _ _)
      | cons g gs =>
        rw [hr] at ih
        subst hc
        simp only [List.map_cons, joinComps_cons_cons, String.data_append]
        simp only [List.map_cons] at ih
        rw [ih]
        rfl
    · rw [if_neg hc]
      cases hr : splitCharList '/' cs with
      | nil => exact absurd hr (splitCharList_ne_nil _ _)
      | cons g gs =>
        rw [hr] at ih
        cases gs with
        | nil =>
          simp only [List.map_cons, List.map_nil, joinComps] at ih ⊢
          show c :: (String.mk g).data = c :: cs
          rw [show (String.mk g).data = cs from ih]
        | cons g2 gs2 =>
          simp only [List.map_cons, joinComps_cons_cons, String.data_append]
            at ih ⊢
          exact congrArg (List.cons c) ih

theorem joinComps_splitSlash (p : String) : joinComps (pySplitSlash p) = p := by
  unfold pySplitSlash
  cases p with
  | mk data => exact congrArg String.mk (data_joinComps_split data)

theorem joinComps_compsOf (p : String) : joinComps (compsOf p) = p := by
  unfold compsOf
  split_ifs with h
  · rw [h]
    rfl
  · exact joinComps_splitSlash p

theorem splitCharList_no_sep (sep : Char) (cs : List Char)
    (h : ∀ ch ∈ cs, ch ≠ sep) : splitCharList sep cs = [cs] := by
  induction cs with
  | nil => rfl
  | cons c cs ih =>
    simp only [splitCharList]
    rw [if_neg (h c (by simp))]
    rw [ih (fun ch hch => h ch (by simp [hch]))]

theorem splitCharList_append_sep (xs ys : List Char)
    (hxs : ∀ ch ∈ xs, ch ≠ '/') :
    splitCharList '/' (xs ++ '/' :: ys) = xs :: splitCharList '/' ys := by
  induction xs with
  | nil => simp [splitCharList]
  | cons x xs ih =>
    simp only [List.cons_append, splitCharList]
    rw [if_neg (hxs x (by simp))]
    simp only [List.append_eq]
    rw [ih (fun ch hch => hxs ch (by simp [hch]))]

theorem mem_splitCharList_no_sep (sep : Char) :
    ∀ (cs : List Char), ∀ g ∈ splitCharList sep cs, sep ∉ g := by
  intro cs
  induction cs with
  | nil =>
    intro g hg
    simp [splitCharList] at hg
    simp [hg]
  | cons c cs ih =>
    intro g hg
    simp only [splitCharList] at hg
    split_ifs at hg with hc
    · rcases List.mem_cons.mp hg with rfl | hmem
      · simp
      · exact ih g hmem
    · cases hr : splitCharList sep cs with
      | nil => exact absurd hr (splitCharList_ne_nil _ _)
      | cons g0 gs =>
        rw [hr] at hg
        rcases List.mem_cons.mp hg with rfl | hmem
        · intro hsep
          rcases List.mem_cons.mp hsep with rfl | hmem2
          · exact hc rfl
          · exact ih g0 (by simp [hr]) hmem2
        · exact ih g (by simp [hr, hmem])

theorem compsOf_no_slash (p : String) :
    ∀ c ∈ compsOf p, ∀ ch ∈ c.data, ch ≠ '/' := by
  intro c hc ch hch
  unfold compsOf at hc
  split_ifs at hc
  · simp at hc
  · unfold pySplitSlash at hc
    obtain ⟨g, hg, rfl⟩ := List.mem_map.mp hc
    intro hcontra
    subst hcontra
    exact mem_splitCharList_no_sep '/' p.data g hg hch

theorem joinComps_ne_empty (c : String) (rest : List String) (hc : c ≠ "") :
    joinComps (c :: rest) ≠ "" := by
  cases rest with
  | nil => exact hc
  | cons b bs =>
    rw [joinComps_cons_cons]
    intro hcontra
    apply hc
    have hdata := congrArg String.data hcontra
    simp only [String.data_append] at hdata
    cases hd : c.data with
    | nil => exact congrArg String.mk hd
    | cons x xs =>
      rw [hd] at hdata
      simp at hdata

theorem splitSlash_joinComps :
    ∀ (cs : List String), cs ≠ [] →
      (∀ c ∈ cs, c ≠ "" ∧ ∀ ch ∈ c.data, ch ≠ '/') →
      pySplitSlash (joinComps cs) = cs := by
  intro cs
  induction cs with
  | nil => intro h; exact absurd rfl h
  | cons c rest ih =>
    intro _ hclean
    cases rest with
    | nil =>
      show pySplitSlash c = [c]
      unfold pySplitSlash
      rw [splitCharList_no_sep '/' c.data (hclean c (by simp)).2]
      rfl
    | cons b bs =>
      rw [joinComps_cons_cons]
      unfold pySplitSlash
      have hdata : (c ++ "/" ++ joinComps (b :: bs)).data =
          c.data ++ '/' :: (joinComps (b :: bs)).data := by
        simp [String.data_append]
      rw [hdata]
      rw [splitCharList_append_sep c.data _ (hclean c (by simp)).2]
      have hrest := ih (by simp)
        (fun x hx => hclean x (by simp [hx]))
      unfold pySplitSlash at hrest
      simp only [List.map_cons]
      have : (splitCharList '/' (joinComps (b :: bs)).data).map String.mk =
          b :: bs := hrest
      rw [show (String.mk c.data) = c from rfl]
      rw [this]

theorem compsOf_joinComps (cs : List String)
    (h : ∀ c ∈ cs, c ≠ "" ∧ ∀ ch ∈ c.data, ch ≠ '/') :
    compsOf (joinComps cs) = cs := by
  cases cs with
  | nil => rfl
  | cons c rest =>
    unfold compsOf
    rw [if_neg (joinComps_ne_empty c rest (h c (by simp)).1)]
    exact splitSlash_joinComps (c :: rest) (by simp) h

theorem commonLen_le_right : ∀ (a b : List String), commonLen a b ≤ b.length := by
  intro a
  induction a with
  | nil => intro b; simp [commonLen]
  | cons x xs ih =>
    intro b
    cases b with
    | nil => simp [commonLen]
    | cons y ys =>
      simp only [commonLen]
      split_ifs
      · simpa using ih ys
      · simp

theorem take_commonLen_eq : ∀ (a b : List String),
    a.take (commonLen a b) = b.take (commonLen a b) := by
  intro a
  induction a with
  | nil => intro b; simp [commonLen]
  | cons x xs ih =>
    intro b
    cases b with
    | nil => simp [commonLen]
    | cons y ys =>
      simp only [commonLen]
      split_ifs with h
      · subst h
        simp [List.take_succ_cons, ih ys]
      · simp

theorem foldl_normStep_clean (cs : List String)
    (h : ∀ c ∈ cs, c ≠ "" ∧ c ≠ "." ∧ c ≠ "..") :
    ∀ acc, List.foldl normStep acc cs = acc ++ cs := by
  induction cs with
  | nil => intro acc; simp
  | cons c cs ih =>
    intro acc
    simp only [List.foldl_cons]
    have hc := h c (by simp)
    have hstep : normStep acc c = acc ++ [c] := by
      simp [normStep, hc.1, hc.2.1, hc.2.2]
    rw [hstep, ih (fun x hx => h x (by simp [hx]))]
    simp

theorem foldl_normStep_dotdot (n : Nat) :
    ∀ acc : List String,
      List.foldl normStep acc (List.replicate n "..") =
        acc.take (acc.length - n) := by
  induction n with
  | zero => intro acc; simp
  | succ n ih =>
    intro acc
    simp only [List.replicate_succ, List.foldl_cons]
    have hstep : normStep acc ".." = acc.dropLast := by simp [normStep]
    rw [hstep, ih]
    rw [List.dropLast_eq_take, List.take_take]
    simp only [List.length_take]
    congr 1
    simp only [inf_eq_min, Nat.min_def]
    split_ifs <;> omega

theorem normComps_roundtrip (t s : List String)
    (ht : ∀ c ∈ t, c ≠ "" ∧ c ≠ "." ∧ c ≠ "..")
    (hs : ∀ c ∈ s, c ≠ "" ∧ c ≠ "." ∧ c ≠ "..") :
    normComps (s ++ relpathComps t s) = t := by
  unfold normComps relpathComps
  rw [List.foldl_append, List.foldl_append]
  have h1 : List.foldl normStep [] s = s := by
    simpa using foldl_normStep_clean s hs []
  rw [h1, foldl_normStep_dotdot]
  have hk : commonLen t s ≤ s.length := commonLen_le_right t s
  have h2 : s.length - (s.length - commonLen t s) = commonLen t s := by omega
  rw [h2]
  rw [foldl_normStep_clean (t.drop (commonLen t s))
    (fun x hx => ht x (List.mem_of_mem_drop hx))]
  rw [show s.take (commonLen t s) = t.take (commonLen t s) from
    (take_commonLen_eq t s).symm]
  exact List.take_append_drop _ t

theorem relpathComps_clean_slashfree (t s : List String)
    (ht : ∀ c ∈ t, c ≠ "" ∧ ∀ ch ∈ c.data, ch ≠ '/') :
    ∀ c ∈ relpathComps t s, c ≠ "" ∧ ∀ ch ∈ c.data, ch ≠ '/' := by
  intro c hc
  unfold relpathComps at hc
  rcases List.mem_append.mp hc with h | h
  · have := List.eq_of_mem_replicate h
    subst this
    refine ⟨by decide, ?_⟩
    intro ch hch
    simp only [show (".." : String).data = ['.', '.'] from rfl] at hch
    rcases List.mem_cons.mp hch with rfl | hch2
    · decide
    · rcases List.mem_cons.mp hch2 with rfl | hch3
      · decide
      · simp at hch3
  · exact ht c (List.mem_of_mem_drop h)

theorem mappingLinkTarget_comps (src dst : String) (hsrc : CleanPath src) :
    compsOf (mappingLinkTarget src dst) =
      relpathComps ([".repoverlay", "repo"] ++ compsOf src)
        ((compsOf dst).dropLast) := by
  unfold mappingLinkTarget
  apply compsOf_joinComps
  apply relpathComps_clean_slashfree
  intro c hc
  rcases List.mem_append.mp hc with h | h
  · rcases List.mem_cons.mp h with rfl | h2
    · refine ⟨by decide, by decide⟩
    · rcases List.mem_cons.mp h2 with rfl | h3
      · refine ⟨by decide, by decide⟩
      · simp at h3
  · exact ⟨(hsrc.2 c h).1, compsOf_no_slash src c h⟩

theorem linkExists_mapping (env : SyncEnv) (dec : List String) (fs : Fs)
    (src dst : String) (hsrc : CleanPath src) (hdst : CleanPath dst) :
    linkExists env dec fs dst (mappingLinkTarget src dst) =
      repoPathExists env src := by
  unfold linkExists
  rw [mappingLinkTarget_comps src dst hsrc]
  rw [normComps_roundtrip ([".repoverlay", "repo"] ++ compsOf src)
    ((compsOf dst).dropLast)
    (by
      intro c hc
      rcases List.mem_append.mp hc with h | h
      · rcases List.mem_cons.mp h with rfl | h2
        · refine ⟨by decide, by decide, by decide⟩
        · rcases List.mem_cons.mp h2 with rfl | h3
          · refine ⟨by decide, by decide, by decide⟩
          · simp at h3
      · exact hsrc.2 c h)
    (fun c hc => hdst.2 c (List.mem_of_mem_dropLast hc))]
  unfold resolveComps
  rw [if_pos (by simp)]
  rw [show ([".repoverlay", "repo"] ++ compsOf src).drop 2 = compsOf src
    from rfl]
  rw [joinComps_compsOf]

/-! Filesystem, directory-creation, removal and creation-loop lemmas. -/

theorem joinComps_append (xs ys : List String) (hxs : xs ≠ []) (hys : ys ≠ []) :
    joinComps (xs ++ ys) = joinComps xs ++ "/" ++ joinComps ys := by
  induction xs with
  | nil => exact absurd rfl hxs
  | cons x xs ih =>
    cases xs with
    | nil =>
      cases ys with
      | nil => exact absurd rfl hys
      | cons y ys2 => rfl
    | cons x2 xs2 =>
      have h1 : joinComps ((x :: x2 :: xs2) ++ ys) =
          x ++ "/" ++ joinComps ((x2 :: xs2) ++ ys) := rfl
      rw [h1, ih (by simp), joinComps_cons_cons]
      simp [String.append_assoc]

theorem pyStartswith_append_right (a b : String) :
    pyStartswith (a ++ b) a = true := by
  unfold pyStartswith
  rw [List.isPrefixOf_iff_prefix, String.data_append]
  exact List.prefix_append _ _

theorem mem_ancestorChain_sep (d a : String)
    (ha : a ∈ ancestorChain d) : pyStartswith d (a ++ "/") = true := by
  unfold ancestorChain at ha
  obtain ⟨i, hi, rfl⟩ := List.mem_map.mp ha
  rw [List.mem_range] at hi
  have hlen1 : i + 1 ≤ ((compsOf d).dropLast).length := hi
  rw [List.length_dropLast] at hlen1
  have hlt : i + 1 < (compsOf d).length := by omega
  have htake : ((compsOf d).dropLast).take (i + 1) =
      (compsOf d).take (i + 1) := by
    rw [List.dropLast_eq_take, List.take_take]
    congr 1
    simp only [inf_eq_min, Nat.min_def]
    split_ifs <;> omega
  rw [htake]
  have hdropne : (compsOf d).drop (i + 1) ≠ [] := by
    intro hcontra
    have hlen2 := congrArg List.length hcontra
    rw [List.length_drop] at hlen2
    simp only [List.length_nil] at hlen2
    omega
  have htakene : (compsOf d).take (i + 1) ≠ [] := by
    intro hcontra
    have hlen2 := congrArg List.length hcontra
    rw [List.length_take] at hlen2
    simp only [List.length_nil, inf_eq_min, Nat.min_def] at hlen2
    split_ifs at hlen2 <;> omega
  have hd' : d = joinComps ((compsOf d).take (i + 1)) ++ "/" ++
      joinComps ((compsOf d).drop (i + 1)) := by
    conv_lhs => rw [← joinComps_compsOf d]
    rw [← joinComps_append _ _ htakene hdropne, List.take_append_drop]
  have hps := pyStartswith_append_right
    (joinComps ((compsOf d).take (i + 1)) ++ "/")
    (joinComps ((compsOf d).drop (i + 1)))
  rw [← hd'] at hps
  exact hps

theorem foldl_insertDir_isSome (chain : List String) :
    ∀ (f : Fs) (q : String), (f q).isSome = true →
      (chain.foldl
        (fun f a => if (f a).isSome then f else fsSet f a FsEntry.dir) f) q =
        f q := by
  induction chain with
  | nil => intro f q _; rfl
  | cons a rest ih =>
    intro f q hq
    simp only [List.foldl_cons]
    by_cases ha : (f a).isSome = true
    · rw [if_pos ha]
      exact ih f q hq
    · rw [if_neg ha]
      have hqa : q ≠ a := by
        intro hcontra
        subst hcontra
        exact ha hq
      have hset : fsSet f a FsEntry.dir q = f q := by
        simp [fsSet, hqa]
      rw [ih (fsSet f a FsEntry.dir) q (by rw [hset]; exact hq), hset]

theorem foldl_insertDir_not_mem (chain : List String) :
    ∀ (f : Fs) (q : String), q ∉ chain →
      (chain.foldl
        (fun f a => if (f a).isSome then f else fsSet f a FsEntry.dir) f) q =
        f q := by
  induction chain with
  | nil => intro f q _; rfl
  | cons a rest ih =>
    intro f q hq
    simp only [List.mem_cons, not_or] at hq
    simp only [List.foldl_cons]
    by_cases ha : (f a).isSome = true
    · rw [if_pos ha]
      exact ih f q hq.2
    · rw [if_neg ha]
      have hset : fsSet f a FsEntry.dir q = f q := by
        simp [fsSet, hq.1]
      rw [ih _ q hq.2, hset]

theorem mkdirParents_created (s : SyncFsSt) (dst : String) :
    (mkdirParents s dst).created = s.created := by
  unfold mkdirParents
  dsimp only
  split_ifs <;> rfl

theorem mkdirParents_warns (s : SyncFsSt) (dst : String) :
    (mkdirParents s dst).warns = s.warns := by
  unfold mkdirParents
  dsimp only
  split_ifs <;> rfl

theorem mkdirParents_fs_isSome (s : SyncFsSt) (dst q : String)
    (h : (s.fs q).isSome = true) : (mkdirParents s dst).fs q = s.fs q := by
  unfold mkdirParents
  dsimp only
  split_ifs <;> first
    | rfl
    | exact foldl_insertDir_isSome (ancestorChain dst) s.fs q h

theorem mkdirParents_fs_not_anc (s : SyncFsSt) (dst q : String)
    (h : q ∉ ancestorChain dst) : (mkdirParents s dst).fs q = s.fs q := by
  unfold mkdirParents
  dsimp only
  split_ifs <;> first
    | rfl
    | exact foldl_insertDir_not_mem (ancestorChain dst) s.fs q h

theorem forceRemoveDst_created (s : SyncFsSt) (p : String) :
    (forceRemoveDst s p).created = s.created := by
  unfold forceRemoveDst
  cases h : s.fs p with
  | none => rfl
  | some e => cases e <;> rfl

theorem forceRemoveDst_warns (s : SyncFsSt) (p : String) :
    (forceRemoveDst s p).warns = s.warns := by
  unfold forceRemoveDst
  cases h : s.fs p with
  | none => rfl
  | some e => cases e <;> rfl

theorem forceRemoveDst_fs_other (s : SyncFsSt) (p q : String) (hq : q ≠ p)
    (hpre : pyStartswith q (p ++ "/") = false) :
    (forceRemoveDst s p).fs q = s.fs q := by
  unfold forceRemoveDst
  cases h : s.fs p with
  | none => rfl
  | some e =>
    cases e with
    | file => simp [fsRemove, hq]
    | dir =>
      show fsRemoveTree s.fs p q = s.fs q
      simp only [fsRemoveTree]
      rw [if_neg]
      rintro (rfl | hc)
      · exact hq rfl
      · rw [hpre] at hc
        cases hc
    | link t => simp [fsRemove, hq]

theorem removalStep_created (s : SyncFsSt) (d : String) :
    (removalStep s d).created = s.created := by
  unfold removalStep
  cases h : s.fs d with
  | none => rfl
  | some e => cases e <;> rfl

theorem removalStep_warns (s : SyncFsSt) (d : String) :
    (removalStep s d).warns = s.warns := by
  unfold removalStep
  cases h : s.fs d with
  | none => rfl
  | some e => cases e <;> rfl

theorem removalStep_dirs (s : SyncFsSt) (d : String) :
    (removalStep s d).dirs = s.dirs := by
  unfold removalStep
  cases h : s.fs d with
  | none => rfl
  | some e => cases e <;> rfl

theorem removalStep_fs_other (s : SyncFsSt) (d q : String) (h : q ≠ d) :
    (removalStep s d).fs q = s.fs q := by
  unfold removalStep
  cases hd : s.fs d with
  | none => rfl
  | some e =>
    cases e with
    | file => rfl
    | dir => rfl
    | link t => simp [fsRemove, h]

theorem foldl_removalStep_fs_not_mem (l : List String) :
    ∀ (s : SyncFsSt) (q : String), q ∉ l →
      (l.foldl removalStep s).fs q = s.fs q := by
  induction l with
  | nil => intro s q _; rfl
  | cons d rest ih =>
    intro s q hq
    simp only [List.mem_cons, not_or] at hq
    simp only [List.foldl_cons]
    rw [ih _ q hq.2, removalStep_fs_other s d q hq.1]

theorem foldl_removalStep_created (l : List String) :
    ∀ (s : SyncFsSt), (l.foldl removalStep s).created = s.created := by
  induction l with
  | nil => intro s; rfl
  | cons d rest ih =>
    intro s
    simp only [List.foldl_cons]
    rw [ih, removalStep_created]

theorem foldl_removalStep_warns (l : List String) :
    ∀ (s : SyncFsSt), (l.foldl removalStep s).warns = s.warns := by
  induction l with
  | nil => intro s; rfl
  | cons d rest ih =>
    intro s
    simp only [List.foldl_cons]
    rw [ih, removalStep_warns]

theorem foldl_removalStep_dirs (l : List String) :
    ∀ (s : SyncFsSt), (l.foldl removalStep s).dirs = s.dirs := by
  induction l with
  | nil => intro s; rfl
  | cons d rest ih =>
    intro s
    simp only [List.foldl_cons]
    rw [ih, removalStep_dirs]

theorem foldl_removalStep_none (l : List String) :
    ∀ (s : SyncFsSt) (q : String), s.fs q = none →
      (l.foldl removalStep s).fs q = none := by
  induction l with
  | nil => intro s q h; exact h
  | cons d rest ih =>
    intro s q h
    simp only [List.foldl_cons]
    apply ih
    by_cases hq : q = d
    · subst hq
      unfold removalStep
      rw [h]
      exact h
    · rw [removalStep_fs_other s d q hq]
      exact h

theorem foldl_removalStep_removes (l : List String) :
    ∀ (s : SyncFsSt) (d : String), d ∈ l →
      (∃ t, s.fs d = some (FsEntry.link t)) →
      (l.foldl removalStep s).fs d = none := by
  induction l with
  | nil =>
    intro s d hd
    simp at hd
  | cons a rest ih =>
    intro s d hd hlink
    simp only [List.foldl_cons]
    by_cases hda : d = a
    · subst hda
      apply foldl_removalStep_none
      obtain ⟨t, ht⟩ := hlink
      unfold removalStep
      rw [ht]
      simp [fsRemove]
    · rcases List.mem_cons.mp hd with hcontra | hmem
      · exact absurd hcontra hda
      · apply ih _ d hmem
        rw [removalStep_fs_other s a d hda]
        exact hlink

theorem create_symlinks_ok_spec (env : SyncEnv) (force : Bool) :
    ∀ (ms : List Mapping) (s s' : SyncFsSt),
      (∀ m ∈ ms, CleanPath m.dst) →
      (ms.map Mapping.dst).Nodup →
      (∀ a ∈ ms.map Mapping.dst, ∀ b ∈ ms.map Mapping.dst,
        pyStartswith b (a ++ "/") = false) →
      create_symlinks env force ms s = (s', none) →
      (∀ m ∈ ms,
        s'.fs m.dst = some (FsEntry.link (mappingLinkTarget m.src m.dst)) ∧
        repoPathExists env m.src = true) ∧
      s'.created = s.created ++ ms.map Mapping.dst ∧
      s'.warns = s.warns ∧
      (∀ q, (∀ m ∈ ms, q ≠ m.dst ∧ pyStartswith q (m.dst ++ "/") = false ∧
        q ∉ ancestorChain m.dst) → s'.fs q = s.fs q) := by
  intro ms
  induction ms with
  | nil =>
    intro s s' _ _ _ h
    simp only [create_symlinks, Prod.mk.injEq] at h
    obtain ⟨h1, -⟩ := h
    subst h1
    simp
  | cons m rest ih =>
    intro s s' hclean hnd hpf h
    simp only [create_symlinks] at h
    by_cases hsrc : repoPathExists env m.src = true
    case neg =>
      have hsrc' : repoPathExists env m.src = false := by
        cases hx : repoPathExists env m.src with
        | false => rfl
        | true => exact absurd hx hsrc
      rw [if_pos (by simp [hsrc'])] at h
      simp at h
    case pos =>
      rw [if_neg (by simp [hsrc])] at h
      have hmdst : m.dst ∈ (m :: rest).map Mapping.dst := by simp
      have hrdst : ∀ m' ∈ rest, m'.dst ∈ (m :: rest).map Mapping.dst := by
        intro m' hm'
        simp only [List.map_cons]
        exact List.mem_cons_of_mem _ (List.mem_map.mpr ⟨m', hm', rfl⟩)
      have hndr : (rest.map Mapping.dst).Nodup := by
        simp only [List.map_cons, List.nodup_cons] at hnd
        exact hnd.2
      have hmne : ∀ m' ∈ rest, m.dst ≠ m'.dst := by
        intro m' hm' hcontra
        simp only [List.map_cons, List.nodup_cons] at hnd
        exact hnd.1 (List.mem_map.mpr ⟨m', hm', hcontra.symm⟩)
      have hcleanr : ∀ m' ∈ rest, CleanPath m'.dst := by
        intro m' hm'
        exact hclean m' (by simp [hm'])
      have hpfr : ∀ a ∈ rest.map Mapping.dst, ∀ b ∈ rest.map Mapping.dst,
          pyStartswith b (a ++ "/") = false := by
        intro a ha b hb
        refine hpf a ?_ b ?_
        · simp only [List.map_cons]
          exact List.mem_cons_of_mem _ ha
        · simp only [List.map_cons]
          exact List.mem_cons_of_mem _ hb
      have hheadq : ∀ m' ∈ rest, m.dst ≠ m'.dst ∧
          pyStartswith m.dst (m'.dst ++ "/") = false ∧
          m.dst ∉ ancestorChain m'.dst := by
        intro m' hm'
        refine ⟨hmne m' hm', ?_, ?_⟩
        · exact hpf m'.dst (hrdst m' hm') m.dst hmdst
        · intro hanc
          have h1 := mem_ancestorChain_sep m'.dst m.dst hanc
          have h2 := hpf m.dst hmdst m'.dst (hrdst m' hm')
          rw [h1] at h2
          cases h2
      cases hfs : s.fs m.dst with
      | some ent =>
        rw [hfs] at h
        by_cases hforce : force = true
        case neg =>
          rw [if_neg hforce] at h
          simp at h
        case pos =>
          rw [if_pos hforce] at h
          set s1 := forceRemoveDst s m.dst with hs1
          set s2 := mkdirParents s1 m.dst with hs2
          set tgt := mappingLinkTarget m.src m.dst with htgt
          set s3 : SyncFsSt := { s2 with
            fs := fsSet s2.fs m.dst (FsEntry.link tgt),
            created := s2.created ++ [m.dst],
            muts := s2.muts ++ [.symlinkPath m.dst tgt] } with hs3
          obtain ⟨hall, hcreated, hwarns, hframe⟩ :=
            ih s3 s' hcleanr hndr hpfr h
          have hs3created : s3.created = s.created ++ [m.dst] := by
            show s2.created ++ [m.dst] = s.created ++ [m.dst]
            rw [hs2, mkdirParents_created, hs1, forceRemoveDst_created]
          have hs3warns : s3.warns = s.warns := by
            show s2.warns = s.warns
            rw [hs2, mkdirParents_warns, hs1, forceRemoveDst_warns]
          have hs3head : s3.fs m.dst = some (FsEntry.link tgt) := by
            show fsSet s2.fs m.dst (FsEntry.link tgt) m.dst = _
            simp [fsSet]
          have hs3other : ∀ q, q ≠ m.dst →
              pyStartswith q (m.dst ++ "/") = false →
              q ∉ ancestorChain m.dst → s3.fs q = s.fs q := by
            intro q hq1 hq2 hq3
            show fsSet s2.fs m.dst (FsEntry.link tgt) q = s.fs q
            rw [show fsSet s2.fs m.dst (FsEntry.link tgt) q = s2.fs q by
              simp [fsSet, hq1]]
            rw [hs2, mkdirParents_fs_not_anc s1 m.dst q hq3]
            rw [hs1, forceRemoveDst_fs_other s m.dst q hq1 hq2]
          refine ⟨?_, ?_, ?_, ?_⟩
          · intro m' hm'
            rcases List.mem_cons.mp hm' with rfl | hmem
            · refine ⟨?_, hsrc⟩
              rw [hframe m'.dst (fun m2 hm2 => hheadq m2 hm2)]
              exact hs3head
            · exact hall m' hmem
          · rw [hcreated, hs3created]
            simp
          · rw [hwarns, hs3warns]
          · intro q hq
            have hqm := hq m (by simp)
            rw [hframe q (fun m2 hm2 => hq m2 (by simp [hm2]))]
            exact hs3other q hqm.1 hqm.2.1 hqm.2.2
      | none =>
        rw [hfs] at h
        set s2 := mkdirParents s m.dst with hs2
        set tgt := mappingLinkTarget m.src m.dst with htgt
        set s3 : SyncFsSt := { s2 with
          fs := fsSet s2.fs m.dst (FsEntry.link tgt),
          created := s2.created ++ [m.dst],
          muts := s2.muts ++ [.symlinkPath m.dst tgt] } with hs3
        obtain ⟨hall, hcreated, hwarns, hframe⟩ :=
          ih s3 s' hcleanr hndr hpfr h
        have hs3created : s3.created = s.created ++ [m.dst] := by
          show s2.created ++ [m.dst] = s.created ++ [m.dst]
          rw [hs2, mkdirParents_created]
        have hs3warns : s3.warns = s.warns := by
          show s2.warns = s.warns
          rw [hs2, mkdirParents_warns]
        have hs3head : s3.fs m.dst = some (FsEntry.link tgt) := by
          show fsSet s2.fs m.dst (FsEntry.link tgt) m.dst = _
          simp [fsSet]
        have hs3other : ∀ q, q ≠ m.dst →
            q ∉ ancestorChain m.dst → s3.fs q = s.fs q := by
          intro q hq1 hq3
          show fsSet s2.fs m.dst (FsEntry.link tgt) q = s.fs q
          rw [show fsSet s2.fs m.dst (FsEntry.link tgt) q = s2.fs q by
            simp [fsSet, hq1]]
          rw [hs2, mkdirParents_fs_not_anc s m.dst q hq3]
        refine ⟨?_, ?_, ?_, ?_⟩
        · intro m' hm'
          rcases List.mem_cons.mp hm' with rfl | hmem
          · refine ⟨?_, hsrc⟩
            rw [hframe m'.dst (fun m2 hm2 => hheadq m2 hm2)]
            exact hs3head
          · exact hall m' hmem
        · rw [hcreated, hs3created]
          simp
        · rw [hwarns, hs3warns]
        · intro q hq
          have hqm := hq m (by simp)
          rw [hframe q (fun m2 hm2 => hq m2 (by simp [hm2]))]
          exact hs3other q hqm.1 hqm.2.2

theorem create_symlinks_err_missing_src (env : SyncEnv) (force : Bool)
    (m : Mapping) (rest : List Mapping) (s : SyncFsSt)
    (h : repoPathExists env m.src = false) :
    create_symlinks env force (m :: rest) s =
      (s, some ("Source not found in overlay: " ++ m.src)) := by
  simp only [create_symlinks]
  rw [if_pos (by simp [h])]

theorem validate_mappings_ok_dsts (ms : List Mapping)
    (h : validate_mappings ms = none) :
    (ms.map Mapping.dst).Nodup ∧
    ∀ a ∈ ms.map Mapping.dst, ∀ b ∈ ms.map Mapping.dst,
      pyStartswith b (a ++ "/") = false := by
  unfold validate_mappings at h
  cases hcol : collectDestinations ms [] with
  | error e => rw [hcol] at h; cases h
  | ok d =>
    rw [hcol] at h
    have hok := (collect_ok_iff ms []).mp ⟨d, hcol⟩
    have hd := collect_ok_val ms [] d hcol
    simp only [List.nil_append] at hd
    subst hd
    refine ⟨hok.2.1, ?_⟩
    intro a ha b hb
    cases hc : pyStartswith b (a ++ "/") with
    | false => rfl
    | true => exact absurd hc ((check_overlapping_none_iff _).mp h a ha b hb)

theorem scan_encrypted_files_nil (repoFiles : List String)
    (h : ∀ p ∈ repoFiles, is_encrypted_file p = false) :
    scan_encrypted_files repoFiles = [] := by
  unfold scan_encrypted_files
  rw [List.filter_eq_nil]
  intro p hp
  simp [h p hp]

theorem sync_overlay_eq_core (env : SyncEnv) (force : Bool)
    (stored : Option StateDoc) (fs₀ : Fs) (decoded₀ : List String)
    (h1 : (read_state stored).encrypted_files = [])
    (h2 : ∀ p ∈ env.repoFiles, is_encrypted_file p = false) :
    sync_overlay env force stored fs₀ decoded₀ =
      syncCore env force stored fs₀ decoded₀ := by
  unfold sync_overlay syncCore
  by_cases hcl : env.repoCloned = true
  case neg =>
    have hcl' : env.repoCloned = false := by
      cases hx : env.repoCloned with
      | false => rfl
      | true => exact absurd hx hcl
    simp [hcl']
  case pos =>
    rw [scan_encrypted_files_nil env.repoFiles h2]
    simp only [hcl, Bool.not_true, Bool.false_eq_true, if_false, h1,
      List.filter_nil, List.isEmpty_nil, if_true, List.map_nil,
      List.nil_append, List.append_nil, Nat.add_zero, Nat.zero_add]
    unfold mappingsOf syncCoreOk coreAfterRemove coreRemoveSet coreNewL
      coreOld coreFiltered coreToRemove coreOrphans coreToCreate
    cases hmap : env.explicitMappings with
    | none =>
      simp only [encDsts, List.filterMap_nil, List.append_nil, enc_expose,
        List.foldl_nil]
    | some ms0 =>
      cases hv : validate_mappings ms0 with
      | none =>
        simp only [encDsts, List.filterMap_nil, List.append_nil, enc_expose,
          List.foldl_nil]
      | some e => rfl

theorem syncCoreOk_create_err (env : SyncEnv) (force : Bool)
    (stored : Option StateDoc) (fs₀ : Fs) (d₀ : List String)
    (ms : List Mapping) (sE : SyncFsSt) (e : String)
    (hcr : create_symlinks env force (coreToCreate fs₀ (coreFiltered env ms))
      (coreAfterRemove env stored fs₀ d₀ ms) = (sE, some e)) :
    syncCoreOk env force stored fs₀ d₀ ms =
      ⟨some e, sE.fs, d₀, stored, sE.muts, sE.warns⟩ := by
  unfold syncCoreOk
  rw [hcr]

theorem syncCoreOk_create_ok (env : SyncEnv) (force : Bool)
    (stored : Option StateDoc) (fs₀ : Fs) (d₀ : List String)
    (ms : List Mapping) (s₁ : SyncFsSt)
    (hcr : create_symlinks env force (coreToCreate fs₀ (coreFiltered env ms))
      (coreAfterRemove env stored fs₀ d₀ ms) = (s₁, none)) :
    syncCoreOk env force stored fs₀ d₀ ms =
      ⟨none, s₁.fs, d₀,
        some ⟨((coreOld stored).filter
            (fun d => !(d ∈ coreRemoveSet env stored fs₀ d₀ ms)) ++
            s₁.created).dedup,
          ((read_state stored).created_directories.dedup ++ s₁.dirs).dedup,
          some []⟩,
        s₁.muts, s₁.warns⟩ := by
  unfold syncCoreOk
  rw [hcr]

theorem syncCoreOk_ok_stored_enc (env : SyncEnv) (force : Bool)
    (stored : Option StateDoc) (fs₀ : Fs) (d₀ : List String)
    (ms : List Mapping)
    (hok : (syncCoreOk env force stored fs₀ d₀ ms).err = none) :
    (read_state (syncCoreOk env force stored fs₀ d₀ ms).stored).encrypted_files
      = [] := by
  cases hcr : create_symlinks env force
      (coreToCreate fs₀ (coreFiltered env ms))
      (coreAfterRemove env stored fs₀ d₀ ms) with
  | mk s oe =>
    cases oe with
    | some e =>
      rw [syncCoreOk_create_err env force stored fs₀ d₀ ms s e hcr] at hok
      simp at hok
    | none =>
      rw [syncCoreOk_create_ok env force stored fs₀ d₀ ms s hcr]
      rfl

theorem coreAfterRemove_created (env : SyncEnv) (stored : Option StateDoc)
    (fs₀ : Fs) (d₀ : List String) (ms : List Mapping) :
    (coreAfterRemove env stored fs₀ d₀ ms).created = [] := by
  unfold coreAfterRemove
  exact foldl_removalStep_created _ _

theorem mem_coreNewL (env : SyncEnv) (ms : List Mapping) (d : String) :
    d ∈ coreNewL env ms ↔ ∃ m, m ∈ coreFiltered env ms ∧ m.dst = d := by
  unfold coreNewL
  simp [List.mem_dedup]

theorem coreFiltered_wf (env : SyncEnv) (ms : List Mapping)
    (hnd : (ms.map Mapping.dst).Nodup)
    (hpf : ∀ a ∈ ms.map Mapping.dst, ∀ b ∈ ms.map Mapping.dst,
      pyStartswith b (a ++ "/") = false)
    (hcl : ∀ m ∈ ms, CleanPath m.src ∧ CleanPath m.dst) :
    ((coreFiltered env ms).map Mapping.dst).Nodup ∧
    (∀ a ∈ (coreFiltered env ms).map Mapping.dst,
      ∀ b ∈ (coreFiltered env ms).map Mapping.dst,
      pyStartswith b (a ++ "/") = false) ∧
    ∀ m ∈ coreFiltered env ms, CleanPath m.src ∧ CleanPath m.dst := by
  have hsub : List.Sublist (coreFiltered env ms) ms := by
    unfold coreFiltered filter_mappings
    exact List.filter_sublist _
  refine ⟨hnd.sublist (hsub.map Mapping.dst), ?_, ?_⟩
  · intro a ha b hb
    obtain ⟨ma, hma, rfl⟩ := List.mem_map.mp ha
    obtain ⟨mb, hmb, rfl⟩ := List.mem_map.mp hb
    exact hpf _ (List.mem_map.mpr ⟨ma, hsub.subset hma, rfl⟩)
      _ (List.mem_map.mpr ⟨mb, hsub.subset hmb, rfl⟩)
  · intro m hm
    exact hcl m (hsub.subset hm)

theorem generated_wf (env : SyncEnv)
    (hnd : env.repoFiles.Nodup)
    (hpf : ∀ a ∈ env.repoFiles, ∀ b ∈ env.repoFiles,
      pyStartswith b (a ++ "/") = false)
    (hcl : ∀ p ∈ env.repoFiles, CleanPath p) :
    ((generate_mappings_from_repo env.repoFiles [] []).map Mapping.dst).Nodup ∧
    (∀ a ∈ (generate_mappings_from_repo env.repoFiles [] []).map Mapping.dst,
      ∀ b ∈ (generate_mappings_from_repo env.repoFiles [] []).map Mapping.dst,
      pyStartswith b (a ++ "/") = false) ∧
    ∀ m ∈ generate_mappings_from_repo env.repoFiles [] [],
      CleanPath m.src ∧ CleanPath m.dst := by
  have hmapid : ∀ l : List String,
      (l.map (fun p => (⟨p, p⟩ : Mapping))).map Mapping.dst = l := by
    intro l
    induction l with
    | nil => rfl
    | cons a t ih =>
      simp only [List.map_cons]
      rw [ih]
  have hmapeq :
      (generate_mappings_from_repo env.repoFiles [] []).map Mapping.dst =
      env.repoFiles.filter (fun p =>
        firstComp p != ".git" && firstComp p != ".config" &&
          !(p ∈ ([] : List String)) && !(p ∈ ([] : List String))) := by
    unfold generate_mappings_from_repo
    exact hmapid _
  refine ⟨?_, ?_, ?_⟩
  · rw [hmapeq]
    exact hnd.sublist (List.filter_sublist _)
  · intro a ha b hb
    rw [hmapeq] at ha hb
    exact hpf a (List.mem_of_mem_filter ha) b (List.mem_of_mem_filter hb)
  · intro m hm
    unfold generate_mappings_from_repo at hm
    obtain ⟨p, hp, rfl⟩ := List.mem_map.mp hm
    have := hcl p (List.mem_of_mem_filter hp)
    exact ⟨this, this⟩

theorem syncCoreOk_idem (env : SyncEnv) (force : Bool)
    (stored : Option StateDoc) (fs₀ : Fs) (d₀ : List String)
    (ms : List Mapping)
    (hclean : ∀ m ∈ coreFiltered env ms, CleanPath m.src ∧ CleanPath m.dst)
    (hnd : ((coreFiltered env ms).map Mapping.dst).Nodup)
    (hpf : ∀ a ∈ (coreFiltered env ms).map Mapping.dst,
      ∀ b ∈ (coreFiltered env ms).map Mapping.dst,
      pyStartswith b (a ++ "/") = false)
    (hok : (syncCoreOk env force stored fs₀ d₀ ms).err = none) :
    (syncCoreOk env force (syncCoreOk env force stored fs₀ d₀ ms).stored
        (syncCoreOk env force stored fs₀ d₀ ms).fs
        (syncCoreOk env force stored fs₀ d₀ ms).decoded ms).muts = [] ∧
    (syncCoreOk env force (syncCoreOk env force stored fs₀ d₀ ms).stored
        (syncCoreOk env force stored fs₀ d₀ ms).fs
        (syncCoreOk env force stored fs₀ d₀ ms).decoded ms).stored =
      (syncCoreOk env force stored fs₀ d₀ ms).stored ∧
    (syncCoreOk env force (syncCoreOk env force stored fs₀ d₀ ms).stored
        (syncCoreOk env force stored fs₀ d₀ ms).fs
        (syncCoreOk env force stored fs₀ d₀ ms).decoded ms).fs =
      (syncCoreOk env force stored fs₀ d₀ ms).fs ∧
    (syncCoreOk env force (syncCoreOk env force stored fs₀ d₀ ms).stored
        (syncCoreOk env force stored fs₀ d₀ ms).fs
        (syncCoreOk env force stored fs₀ d₀ ms).decoded ms).decoded =
      (syncCoreOk env force stored fs₀ d₀ ms).decoded := by
  cases hcr : create_symlinks env force
      (coreToCreate fs₀ (coreFiltered env ms))
      (coreAfterRemove env stored fs₀ d₀ ms) with
  | mk s₁ oe =>
  cases oe with
  | some e =>
    rw [syncCoreOk_create_err env force stored fs₀ d₀ ms s₁ e hcr] at hok
    simp at hok
  | none =>
  have hr1 := syncCoreOk_create_ok env force stored fs₀ d₀ ms s₁ hcr
  set TC := coreToCreate fs₀ (coreFiltered env ms) with hTC
  set TR := coreRemoveSet env stored fs₀ d₀ ms with hTR
  set A := ((coreOld stored).filter (fun d => !(d ∈ TR)) ++
    s₁.created).dedup with hA
  set B := ((read_state stored).created_directories.dedup ++
    s₁.dirs).dedup with hB
  rw [hr1]
  dsimp only
  -- run-1 facts from the creation-pass specification
  have hsubC : ∀ m, m ∈ TC → m ∈ coreFiltered env ms := by
    intro m hm
    rw [hTC] at hm
    unfold coreToCreate at hm
    exact List.mem_of_mem_filter hm
  have hspec := create_symlinks_ok_spec env force TC
    (coreAfterRemove env stored fs₀ d₀ ms) s₁
    (fun m hm => (hclean m (hsubC m hm)).2)
    (by
      rw [hTC]
      unfold coreToCreate
      exact hnd.sublist ((List.filter_sublist _).map Mapping.dst))
    (by
      intro a ha b hb
      rw [hTC] at ha hb
      unfold coreToCreate at ha hb
      obtain ⟨ma, hma, rfl⟩ := List.mem_map.mp ha
      obtain ⟨mb, hmb, rfl⟩ := List.mem_map.mp hb
      exact hpf _ (List.mem_map.mpr ⟨ma, List.mem_of_mem_filter hma, rfl⟩)
        _ (List.mem_map.mpr ⟨mb, List.mem_of_mem_filter hmb, rfl⟩))
    hcr
  obtain ⟨hall, hcre, hwrn, hframe⟩ := hspec
  rw [coreAfterRemove_created, List.nil_append] at hcre
  have hinj : ∀ m ∈ coreFiltered env ms, ∀ m' ∈ coreFiltered env ms,
      m.dst = m'.dst → m = m' := by
    intro m hm m' hm' he
    exact List.inj_on_of_nodup_map hnd hm hm' he
  -- a mapping skipped by the creation pass already has the correct link
  have hskip : ∀ m ∈ coreFiltered env ms, m ∉ TC →
      fs₀ m.dst = some (FsEntry.link (mappingLinkTarget m.src m.dst)) := by
    intro m hm hn
    rw [hTC] at hn
    unfold coreToCreate at hn
    cases hfs : fs₀ m.dst with
    | none => exact absurd (List.mem_filter.mpr ⟨hm, by simp [hfs]⟩) hn
    | some en =>
      cases en with
      | file => exact absurd (List.mem_filter.mpr ⟨hm, by simp [hfs]⟩) hn
      | dir => exact absurd (List.mem_filter.mpr ⟨hm, by simp [hfs]⟩) hn
      | link t =>
        by_cases ht : t = mappingLinkTarget m.src m.dst
        · rw [ht]
        · exact absurd (List.mem_filter.mpr ⟨hm, by simp [hfs, ht]⟩) hn
  -- the creation pass does not touch a skipped destination
  have hfq : ∀ m ∈ coreFiltered env ms, m ∉ TC →
      s₁.fs m.dst = (coreAfterRemove env stored fs₀ d₀ ms).fs m.dst := by
    intro m hm hn
    apply hframe
    intro m' hm'
    have hm'f : m' ∈ coreFiltered env ms := hsubC m' hm'
    refine ⟨?_, ?_, ?_⟩
    · intro he
      exact hn (by rw [hinj m hm m' hm'f he]; exact hm')
    · exact hpf m'.dst (List.mem_map.mpr ⟨m', hm'f, rfl⟩)
        m.dst (List.mem_map.mpr ⟨m, hm, rfl⟩)
    · intro hanc
      have hsep := mem_ancestorChain_sep m'.dst m.dst hanc
      rw [hpf m.dst (List.mem_map.mpr ⟨m, hm, rfl⟩)
        m'.dst (List.mem_map.mpr ⟨m', hm'f, rfl⟩)] at hsep
      cases hsep
  have harfs_rm : ∀ m ∈ coreFiltered env ms, m ∉ TC → m.dst ∈ TR →
      (coreAfterRemove env stored fs₀ d₀ ms).fs m.dst = none := by
    intro m hm hn hr
    unfold coreAfterRemove
    apply foldl_removalStep_removes
    · rw [hTR] at hr
      exact hr
    · exact ⟨_, hskip m hm hn⟩
  have harfs_keep : ∀ (q : String), q ∉ TR →
      (coreAfterRemove env stored fs₀ d₀ ms).fs q = fs₀ q := by
    intro q hq
    rw [hTR] at hq
    unfold coreAfterRemove
    exact foldl_removalStep_fs_not_mem _ _ q hq
  -- the trichotomy for a filtered mapping after run 1
  have htri : ∀ m ∈ coreFiltered env ms,
      (s₁.fs m.dst =
          some (FsEntry.link (mappingLinkTarget m.src m.dst)) ∧
        repoPathExists env m.src = true) ∨
      (s₁.fs m.dst =
          some (FsEntry.link (mappingLinkTarget m.src m.dst)) ∧
        m ∉ TC ∧ m.dst ∉ TR) ∨
      (s₁.fs m.dst = none ∧ m ∉ TC ∧ m.dst ∈ TR) := by
    intro m hm
    by_cases hc : m ∈ TC
    · exact Or.inl (hall m hc)
    · by_cases hr : m.dst ∈ TR
      · refine Or.inr (Or.inr ⟨?_, hc, hr⟩)
        rw [hfq m hm hc]
        exact harfs_rm m hm hc hr
      · refine Or.inr (Or.inl ⟨?_, hc, hr⟩)
        rw [hfq m hm hc, harfs_keep m.dst hr]
        exact hskip m hm hc
  -- a kept old link whose mapping was skipped still has a live source
  have hskipSrc : ∀ m ∈ coreFiltered env ms, m ∉ TC → m.dst ∉ TR →
      m.dst ∈ coreOld stored → repoPathExists env m.src = true := by
    intro m hm hnc hnr hold
    have hnew : m.dst ∈ coreNewL env ms :=
      (mem_coreNewL env ms m.dst).mpr ⟨m, hm, rfl⟩
    have hnorp : m.dst ∉ coreOrphans env d₀ fs₀ (coreOld stored)
        (coreNewL env ms) := by
      intro h
      apply hnr
      rw [hTR]
      unfold coreRemoveSet coreToRemove
      exact List.mem_append_right _ h
    have hmem1 : m.dst ∈ (coreNewL env ms).filter
        (fun d => d ∈ coreOld stored) :=
      List.mem_filter.mpr ⟨hnew, by simp [hold]⟩
    have hlx : linkExists env d₀ fs₀ m.dst
        (mappingLinkTarget m.src m.dst) = true := by
      by_contra hfalse
      apply hnorp
      unfold coreOrphans
      refine List.mem_filter.mpr ⟨hmem1, ?_⟩
      simp only [Bool.not_eq_true] at hfalse
      simp [hskip m hm hnc, hfalse]
    rw [linkExists_mapping env d₀ fs₀ m.src m.dst
      (hclean m hm).1 (hclean m hm).2] at hlx
    exact hlx
  -- membership in the new stored symlink list
  have hA_mem : ∀ d, d ∈ A ↔
      (d ∈ coreOld stored ∧ d ∉ TR) ∨ ∃ m, m ∈ TC ∧ m.dst = d := by
    intro d
    rw [hA, hcre]
    simp [List.mem_dedup, List.mem_filter]
  have hA_dedup : A.dedup = A := by
    rw [hA]
    exact List.dedup_idem
  have hold2 : coreOld (some ⟨A, B, some []⟩) = A := hA_dedup
  -- run 2: the stale part of the removal set is empty
  have hrm2a : A.filter (fun d => !(d ∈ coreNewL env ms)) = [] := by
    rw [List.filter_eq_nil]
    intro d hd
    rcases (hA_mem d).mp hd with ⟨hdo, hdr⟩ | ⟨m, hmc, rfl⟩
    · by_cases hnin : d ∈ coreNewL env ms
      · simp [hnin]
      · exfalso
        apply hdr
        rw [hTR]
        unfold coreRemoveSet coreToRemove
        apply List.mem_append_left
        exact List.mem_filter.mpr ⟨hdo, by simp [hnin]⟩
    · have hnew : m.dst ∈ coreNewL env ms :=
        (mem_coreNewL env ms m.dst).mpr ⟨m, hsubC m hmc, rfl⟩
      simp [hnew]
  -- run 2: no orphans either
  have hrm2b : coreOrphans env d₀ s₁.fs A (coreNewL env ms) = [] := by
    unfold coreOrphans
    rw [List.filter_eq_nil]
    intro d hd
    have hdA : d ∈ A := by
      have := (List.mem_filter.mp hd).2
      simpa using this
    have hdn : d ∈ coreNewL env ms := (List.mem_filter.mp hd).1
    obtain ⟨m, hm, rfl⟩ := (mem_coreNewL env ms _).mp hdn
    have hcases : s₁.fs m.dst = none ∨
        (s₁.fs m.dst =
            some (FsEntry.link (mappingLinkTarget m.src m.dst)) ∧
          repoPathExists env m.src = true) := by
      rcases htri m hm with ⟨hlink, hsrc⟩ | ⟨hlink, hnc, hnr⟩ |
        ⟨hnone, hnc, hrm⟩
      · exact Or.inr ⟨hlink, hsrc⟩
      · rcases (hA_mem m.dst).mp hdA with ⟨hdo, _⟩ | ⟨m', hm'c, he⟩
        · exact Or.inr ⟨hlink, hskipSrc m hm hnc hnr hdo⟩
        · exfalso
          apply hnc
          rw [hinj m hm m' (hsubC m' hm'c) he.symm]
          exact hm'c
      · exact Or.inl hnone
    rcases hcases with hnone | ⟨hlink, hsrc⟩
    · simp [hnone]
    · have hlx : linkExists env d₀ s₁.fs m.dst
          (mappingLinkTarget m.src m.dst) = true := by
        rw [linkExists_mapping env d₀ s₁.fs m.src m.dst
          (hclean m hm).1 (hclean m hm).2]
        exact hsrc
      simp [hlink, hlx]
  have htoRem2 : coreRemoveSet env (some ⟨A, B, some []⟩) s₁.fs d₀ ms = [] := by
    unfold coreRemoveSet coreToRemove
    rw [hold2, hrm2a, hrm2b]
    rfl
  have hafter2 : coreAfterRemove env (some ⟨A, B, some []⟩) s₁.fs d₀ ms =
      ⟨s₁.fs, [], [], [], 0⟩ := by
    unfold coreAfterRemove
    rw [htoRem2]
    rfl
  -- run 2: case split on whether anything is left to create
  cases hc2 : coreToCreate s₁.fs (coreFiltered env ms) with
  | nil =>
    have hcr2 : create_symlinks env force
        (coreToCreate s₁.fs (coreFiltered env ms))
        (coreAfterRemove env (some ⟨A, B, some []⟩) s₁.fs d₀ ms) =
        ((⟨s₁.fs, [], [], [], 0⟩ : SyncFsSt), none) := by
      rw [hc2, hafter2]
      rfl
    have hr2 := syncCoreOk_create_ok env force (some ⟨A, B, some []⟩)
      s₁.fs d₀ ms ⟨s₁.fs, [], [], [], 0⟩ hcr2
    rw [hr2]
    dsimp only
    refine ⟨rfl, ?_, rfl, rfl⟩
    have hsym2 : ((coreOld (some ⟨A, B, some []⟩)).filter
        (fun d => !(d ∈ coreRemoveSet env (some ⟨A, B, some []⟩)
          s₁.fs d₀ ms)) ++ ([] : List String)).dedup = A := by
      rw [htoRem2, hold2, List.append_nil]
      have hft : A.filter (fun d => !(d ∈ ([] : List String))) = A :=
        List.filter_eq_self.mpr (fun a _ => by simp)
      rw [hft]
      exact hA_dedup
    have hdirs2 : ((read_state (some (⟨A, B, some []⟩ :
        StateDoc))).created_directories.dedup ++ ([] : List String)).dedup
        = B := by
      show (B.dedup ++ ([] : List String)).dedup = B
      rw [hB]
      simp only [List.dedup_idem, List.append_nil]
    rw [hsym2, hdirs2]
  | cons m rest =>
    have hm_mem : m ∈ coreToCreate s₁.fs (coreFiltered env ms) := by
      rw [hc2]
      exact List.mem_cons_self m rest
    have hm_mem' := hm_mem
    unfold coreToCreate at hm_mem'
    have hmf : m ∈ coreFiltered env ms := List.mem_of_mem_filter hm_mem'
    have hp := (List.mem_filter.mp hm_mem').2
    have hsrcF : repoPathExists env m.src = false := by
      rcases htri m hmf with ⟨hlink, hsrc⟩ | ⟨hlink, hnc, hnr⟩ |
        ⟨hnone, hnc, hrm⟩
      · simp [hlink] at hp
      · simp [hlink] at hp
      · rw [hTR] at hrm
        unfold coreRemoveSet coreToRemove at hrm
        rcases List.mem_append.mp hrm with hpart | horp
        · have hstale := (List.mem_filter.mp hpart).2
          have hnew : m.dst ∈ coreNewL env ms :=
            (mem_coreNewL env ms m.dst).mpr ⟨m, hmf, rfl⟩
          simp [hnew] at hstale
        · unfold coreOrphans at horp
          have hb := (List.mem_filter.mp horp).2
          simp only [hskip m hmf hnc, Bool.not_eq_true'] at hb
          rw [linkExists_mapping env d₀ fs₀ m.src m.dst
            (hclean m hmf).1 (hclean m hmf).2] at hb
          exact hb
    have hcr2 : create_symlinks env force
        (coreToCreate s₁.fs (coreFiltered env ms))
        (coreAfterRemove env (some ⟨A, B, some []⟩) s₁.fs d₀ ms) =
        ((⟨s₁.fs, [], [], [], 0⟩ : SyncFsSt),
          some ("Source not found in overlay: " ++ m.src)) := by
      rw [hc2, hafter2]
      exact create_symlinks_err_missing_src env force m rest _ hsrcF
    have hr2 := syncCoreOk_create_err env force (some ⟨A, B, some []⟩)
      s₁.fs d₀ ms ⟨s₁.fs, [], [], [], 0⟩
      ("Source not found in overlay: " ++ m.src) hcr2
    rw [hr2]
    exact ⟨rfl, rfl, rfl, rfl⟩

/-- **C4 (amended).** After a successful `sync_overlay` run in a world with
no encrypted files involved — the stored state has no encrypted-file
records, no checkout file carries an encryption suffix, the checkout's file
listing is duplicate-free and consists of clean relative paths none of
which sits under another, and any explicit mappings likewise use clean
paths — an immediate second run with the same environment performs zero
filesystem mutations and leaves the filesystem, the decoded-file set and
the persisted state document exactly as the first run left them. -/
theorem sync_idempotent_no_encryption (env : SyncEnv) (force : Bool)
    (stored : Option StateDoc) (fs₀ : Fs) (d₀ : List String)
    (hencSt : (read_state stored).encrypted_files = [])
    (hencRepo : ∀ p ∈ env.repoFiles, is_encrypted_file p = false)
    (hndRepo : env.repoFiles.Nodup)
    (hcleanRepo : ∀ p ∈ env.repoFiles, CleanPath p)
    (hpfRepo : ∀ a ∈ env.repoFiles, ∀ b ∈ env.repoFiles,
      pyStartswith b (a ++ "/") = false)
    (hexClean : ∀ msE, env.explicitMappings = some msE →
      ∀ m ∈ msE, CleanPath m.src ∧ CleanPath m.dst)
    (hok : (sync_overlay env force stored fs₀ d₀).err = none) :
    (sync_overlay env force (sync_overlay env force stored fs₀ d₀).stored
        (sync_overlay env force stored fs₀ d₀).fs
        (sync_overlay env force stored fs₀ d₀).decoded).muts = [] ∧
    (sync_overlay env force (sync_overlay env force stored fs₀ d₀).stored
        (sync_overlay env force stored fs₀ d₀).fs
        (sync_overlay env force stored fs₀ d₀).decoded).stored =
      (sync_overlay env force stored fs₀ d₀).stored ∧
    (sync_overlay env force (sync_overlay env force stored fs₀ d₀).stored
        (sync_overlay env force stored fs₀ d₀).fs
        (sync_overlay env force stored fs₀ d₀).decoded).fs =
      (sync_overlay env force stored fs₀ d₀).fs ∧
    (sync_overlay env force (sync_overlay env force stored fs₀ d₀).stored
        (sync_overlay env force stored fs₀ d₀).fs
        (sync_overlay env force stored fs₀ d₀).decoded).decoded =
      (sync_overlay env force stored fs₀ d₀).decoded := by
  have he1 := sync_overlay_eq_core env force stored fs₀ d₀ hencSt hencRepo
  rw [he1] at hok ⊢
  cases hrc : env.repoCloned with
  | false =>
    exfalso
    simp [syncCore, hrc] at hok
  | true =>
    cases hmo : mappingsOf env with
    | error e =>
      exfalso
      simp [syncCore, hrc, hmo] at hok
    | ok ms =>
      have hcoreEq : ∀ (st : Option StateDoc) (f : Fs) (dd : List String),
          syncCore env force st f dd = syncCoreOk env force st f dd ms := by
        intro st f dd
        simp [syncCore, hrc, hmo]
      rw [hcoreEq] at hok
      have hwf : ((coreFiltered env ms).map Mapping.dst).Nodup ∧
          (∀ a ∈ (coreFiltered env ms).map Mapping.dst,
            ∀ b ∈ (coreFiltered env ms).map Mapping.dst,
            pyStartswith b (a ++ "/") = false) ∧
          ∀ m ∈ coreFiltered env ms, CleanPath m.src ∧ CleanPath m.dst := by
        cases hsrc : env.explicitMappings with
        | some msE =>
          unfold mappingsOf at hmo
          rw [hsrc] at hmo
          dsimp only at hmo
          cases hv : validate_mappings msE with
          | some e =>
            rw [hv] at hmo
            simp at hmo
          | none =>
            rw [hv] at hmo
            dsimp only at hmo
            injection hmo with h
            subst h
            have hd := validate_mappings_ok_dsts msE hv
            exact coreFiltered_wf env msE hd.1 hd.2 (hexClean msE hsrc)
        | none =>
          unfold mappingsOf at hmo
          rw [hsrc] at hmo
          dsimp only at hmo
          injection hmo with h
          subst h
          have hg := generated_wf env hndRepo hpfRepo hcleanRepo
          exact coreFiltered_wf env _ hg.1 hg.2.1 hg.2.2
      obtain ⟨hnd', hpf', hcl'⟩ := hwf
      have hmain := syncCoreOk_idem env force stored fs₀ d₀ ms
        hcl' hnd' hpf' hok
      have hst1enc := syncCoreOk_ok_stored_enc env force stored fs₀ d₀ ms hok
      have he2 := sync_overlay_eq_core env force
        (syncCore env force stored fs₀ d₀).stored
        (syncCore env force stored fs₀ d₀).fs
        (syncCore env force stored fs₀ d₀).decoded
        (by rw [hcoreEq]; exact hst1enc) hencRepo
      rw [he2]
      simp only [hcoreEq]
      exact hmain

theorem sync_idempotent_no_encryption_witness :
    (sync_overlay noEncEnv false
        (sync_overlay noEncEnv false none (fun _ => none) []).stored
        (sync_overlay noEncEnv false none (fun _ => none) []).fs
        (sync_overlay noEncEnv false none (fun _ => none) []).decoded).muts
      = [] ∧
    (sync_overlay noEncEnv false
        (sync_overlay noEncEnv false none (fun _ => none) []).stored
        (sync_overlay noEncEnv false none (fun _ => none) []).fs
        (sync_overlay noEncEnv false none (fun _ => none) []).decoded).stored
      = (sync_overlay noEncEnv false none (fun _ => none) []).stored ∧
    (sync_overlay noEncEnv false
        (sync_overlay noEncEnv false none (fun _ => none) []).stored
        (sync_overlay noEncEnv false none (fun _ => none) []).fs
        (sync_overlay noEncEnv false none (fun _ => none) []).decoded).fs
      = (sync_overlay noEncEnv false none (fun _ => none) []).fs ∧
    (sync_overlay noEncEnv false
        (sync_overlay noEncEnv false none (fun _ => none) []).stored
        (sync_overlay noEncEnv false none (fun _ => none) []).fs
        (sync_overlay noEncEnv false none (fun _ => none) []).decoded).decoded
      = (sync_overlay noEncEnv false none (fun _ => none) []).decoded :=
  sync_idempotent_no_encryption noEncEnv false none (fun _ => none) []
    rfl (by decide) (by decide) (by decide) (by decide)
    (fun msE h => nomatch h) (by decide)

end Repoverlay
